import Mathlib

/-!
# Verification of the MT5 reverse-position bot's reconciliation engine

Shallow embedding of `src/mt5_reverse_bot.py`. Positions, the linkage table
(`orig_to_rev`), the reversed-once set and one polling cycle (classification,
rebuild-from-comments, Pass A opening, Pass B maintenance/teardown) are
translated directly from the source. Venue responses (symbol metadata, ticks,
order results, the post-open settling query and the second `positions_get()`
call inside a cycle) are supplied by an explicit `Venue` record of response
functions, so a cycle is a pure function from (venue responses, engine state,
snapshot) to (engine state, list of issued commands). Prices and volumes are
rationals; Python's `round` (half-to-even) is modelled on `ℚ`.
-/

namespace MT5Reverse

/-- MT5 constant `POSITION_TYPE_BUY`. -/
def POSITION_TYPE_BUY : ℕ := 0

/-- MT5 constant `POSITION_TYPE_SELL`. -/
def POSITION_TYPE_SELL : ℕ := 1

/-- MT5 constant `ORDER_TYPE_BUY`. -/
def ORDER_TYPE_BUY : ℕ := 0

/-- MT5 constant `ORDER_TYPE_SELL`. -/
def ORDER_TYPE_SELL : ℕ := 1

/-- `MAGIC = 987654321`, the owner tag stamped on reverse positions. -/
def MAGIC : ℕ := 987654321

/-- `COMMENT_PREFIX = "REV of "`, as a character list. -/
def COMMENT_PREFIX : List Char := ['R', 'E', 'V', ' ', 'o', 'f', ' ']

/-- A venue-reported position (`mt5.TradePosition`); the comment is a
character list, stop-loss/take-profit are `0` when unset (MT5 convention). -/
structure TradePosition where
  ticket : ℕ
  symbol : String
  ptype : ℕ
  volume : ℚ
  sl : ℚ
  tp : ℚ
  magic : ℕ
  comment : List Char
deriving DecidableEq

/-- Symbol metadata relevant to the bot: `digits` (price precision) and
`visible`. -/
structure SymbolMeta where
  digits : ℕ
  visible : Bool
deriving DecidableEq

/-- Python `round` on a rational: round half to even to the nearest integer. -/
def roundHalfEven (q : ℚ) : ℤ :=
  if q - ⌊q⌋ < 1 / 2 then ⌊q⌋
  else if q - ⌊q⌋ > 1 / 2 then ⌊q⌋ + 1
  else if ⌊q⌋ % 2 = 0 then ⌊q⌋ else ⌊q⌋ + 1

/-- Python `round(price, digits)`: round half to even at `digits` decimal
places. -/
def roundToDigits (digits : ℕ) (price : ℚ) : ℚ :=
  (roundHalfEven (price * 10 ^ digits) : ℚ) / 10 ^ digits

/-! ## Association lists with Python-dict semantics

`orig_to_rev` is a `Dict[int, int]`; we embed it as a list of pairs where
assignment replaces the value in place for an existing key and appends a new
key, lookup takes the first match, and `pop` removes the first matching
entry. -/

/-- Dict lookup: first entry with the given key. -/
def alLookup {α : Type} : List (ℕ × α) → ℕ → Option α
  | [], _ => none
  | e :: t, k => if e.1 = k then some e.2 else alLookup t k

/-- Dict assignment: replace in place if the key exists, else append. -/
def alUpdate {α : Type} : List (ℕ × α) → ℕ → α → List (ℕ × α)
  | [], k, v => [(k, v)]
  | e :: t, k, v => if e.1 = k then (k, v) :: t else e :: alUpdate t k v

/-- Dict `pop(k, None)`: remove the first entry with the given key. -/
def alErase {α : Type} : List (ℕ × α) → ℕ → List (ℕ × α)
  | [], _ => []
  | e :: t, k => if e.1 = k then t else e :: alErase t k

/-- The keys of an association list, in order. -/
def alKeys {α : Type} : List (ℕ × α) → List ℕ
  | [] => []
  | e :: t => e.1 :: alKeys t

/-! ## Source helpers (`mt5_reverse_bot.py` lines 31–94) -/

/-- A command issued to the venue through `mt5.order_send`: an open request
(Pass A), an SL/TP modification (`modify_position_sltp`, with `0` as the
unset sentinel) or a close request (`close_position`). -/
inductive Command where
  | openOrder (symbol : String) (otype : ℕ) (volume : ℚ) (price : ℚ)
      (sl tp : Option ℚ) (comment : List Char) (magic : ℕ)
  | modifySLTP (position : ℕ) (symbol : String) (sl tp : ℚ)
  | closePos (position : ℕ) (symbol : String) (volume : ℚ) (otype : ℕ)
      (price : Option ℚ)
deriving DecidableEq

/-- The venue's responses during one cycle: symbol metadata, symbol
selection, ticks, `order_send` results for open requests, the
`positions_get(symbol=...)` settling query after an open, and the second
`positions_get()` call that Pass B performs (line 252). -/
structure Venue where
  symbolInfo : String → Option SymbolMeta
  symbolSelect : String → Bool
  tick : String → Option (ℚ × ℚ)
  orderResult : Command → Option ℕ
  settle : String → List TradePosition
  posAgain : List TradePosition

/-- `normalize_price` (lines 31–37): round to the symbol's reported digits;
if the symbol metadata is unavailable, return the price unchanged. -/
def normalize_price (v : Venue) (symbol : String) (price : ℚ) : ℚ :=
  match v.symbolInfo symbol with
  | none => price
  | some info => roundToDigits info.digits price

/-- `price_from_tick` (lines 39–47): ask for a buy, bid for a sell. -/
def price_from_tick (v : Venue) (symbol : String) (position_type : ℕ) :
    Option ℚ :=
  match v.tick symbol with
  | none => none
  | some t => if position_type = POSITION_TYPE_BUY then some t.2 else some t.1

/-- `ensure_symbol` (lines 49–55). -/
def ensure_symbol (v : Venue) (symbol : String) : Bool :=
  match v.symbolInfo symbol with
  | none => false
  | some info => if ¬ info.visible then v.symbolSelect symbol else true

/-- `is_our_reverse` (lines 66–71): magic matches and the comment is
non-empty and starts with the reserved comment marker. -/
def is_our_reverse (pos : TradePosition) : Bool :=
  if pos.magic ≠ MAGIC then false
  else if pos.comment ≠ [] ∧ COMMENT_PREFIX <+: pos.comment then true
  else false

/-- The zero digit of every contiguous run of Unicode decimal digits
(category Nd, Unicode 15.1, the table used by CPython 3.12's `re` and
`int`): a character is a decimal digit exactly when its code point lies
within nine of one of these bases, and its digit value is the offset from
the base. -/
def pyDigitZeros : List ℕ :=
  [0x30, 0x660, 0x6F0, 0x7C0, 0x966, 0x9E6, 0xA66, 0xAE6, 0xB66, 0xBE6,
   0xC66, 0xCE6, 0xD66, 0xDE6, 0xE50, 0xED0, 0xF20, 0x1040, 0x1090,
   0x17E0, 0x1810, 0x1946, 0x19D0, 0x1A80, 0x1A90, 0x1B50, 0x1BB0,
   0x1C40, 0x1C50, 0xA620, 0xA8D0, 0xA900, 0xA9D0, 0xA9F0, 0xAA50,
   0xABF0, 0xFF10, 0x104A0, 0x10D30, 0x11066, 0x110F0, 0x11136, 0x111D0,
   0x112F0, 0x11450, 0x114D0, 0x11650, 0x116C0, 0x11730, 0x118E0,
   0x11950, 0x11C50, 0x11D50, 0x11DA0, 0x11F50, 0x16A60, 0x16AC0,
   0x16B50, 0x1D7CE, 0x1D7D8, 0x1D7E2, 0x1D7EC, 0x1D7F6, 0x1E140,
   0x1E2F0, 0x1E4F0, 0x1E950, 0x1FBF0]

/-- The base of the decimal-digit run containing `c`, when there is one. -/
def pyDigitZero (c : Char) : Option ℕ :=
  pyDigitZeros.find? (fun z => z ≤ c.toNat && c.toNat ≤ z + 9)

/-- Python's `\d`: whether `c` is a Unicode decimal digit. -/
def isPyDigit (c : Char) : Bool :=
  (pyDigitZero c).isSome

/-- The decimal value of a Unicode decimal digit (0 for non-digits). -/
def pyDigitVal (c : Char) : ℕ :=
  match pyDigitZero c with
  | some z => c.toNat - z
  | none => 0

/-- Python `int` on a run of Unicode decimal digits (big-endian). -/
def pyDigitsVal (l : List Char) : ℕ :=
  l.foldl (fun acc c => acc * 10 + pyDigitVal c) 0

/-- `parse_original_ticket_from_comment` (lines 73–81): Python's
`re.match` of the marker, `(\d+)` and `$`, then `int` on the captured
group.  `\d` matches any Unicode decimal digit (`isPyDigit`), and `$`
matches at the end of the string or just before a single trailing newline,
so a comment parses exactly when it is the marker followed by one or more
decimal digits optionally followed by one `'\n'`; the result is the
digits' decimal value. -/
def parse_original_ticket_from_comment (comment : List Char) : Option ℕ :=
  if COMMENT_PREFIX <+: comment then
    let tail := comment.drop COMMENT_PREFIX.length
    let rest := if tail.getLast? = some '\n' then tail.dropLast else tail
    if rest ≠ [] ∧ ∀ c ∈ rest, isPyDigit c then some (pyDigitsVal rest)
    else none
  else none

/-- Big-endian decimal digit characters of `n`, with enough fuel; emits
nothing for `0`. -/
def natToCharsAux : ℕ → ℕ → List Char
  | _, 0 => []
  | 0, _ => []
  | fuel + 1, n + 1 =>
    natToCharsAux fuel ((n + 1) / 10) ++ [Char.ofNat (48 + (n + 1) % 10)]

/-- The decimal digit characters of `n` (Python `str(n)` for `n : ℕ`). -/
def natToChars (n : ℕ) : List Char :=
  if n = 0 then ['0'] else natToCharsAux n n

/-- The comment written on a reverse: `f"{COMMENT_PREFIX}{op.ticket}"`
(line 232). -/
def reverse_comment (ticket : ℕ) : List Char := COMMENT_PREFIX ++ natToChars ticket

/-- `reverse_type` (lines 83–84). -/
def reverse_type (original_type : ℕ) : ℕ :=
  if original_type = POSITION_TYPE_BUY then ORDER_TYPE_SELL else ORDER_TYPE_BUY

/-- `desired_sltp_for_reverse` (lines 86–94): reverse SL is the original's
TP when truthy and positive, reverse TP is the original's SL likewise. -/
def desired_sltp_for_reverse (orig : TradePosition) : Option ℚ × Option ℚ :=
  (if orig.tp ≠ 0 ∧ orig.tp > 0 then some orig.tp else none,
   if orig.sl ≠ 0 ∧ orig.sl > 0 then some orig.sl else none)

/-- Current reverse SL (line 276): `0.0` means unset. -/
def current_sl (rev_pos : TradePosition) : Option ℚ :=
  if rev_pos.sl ≠ 0 ∧ rev_pos.sl > 0 then some rev_pos.sl else none

/-- Current reverse TP (line 277): `0.0` means unset. -/
def current_tp (rev_pos : TradePosition) : Option ℚ :=
  if rev_pos.tp ≠ 0 ∧ rev_pos.tp > 0 then some rev_pos.tp else none

/-- One arm of the `need_modify` computation (lines 281–289): a desired
level and a current level disagree — set-ness differs, or both are set and
the normalized prices differ. -/
def levelMismatch (v : Venue) (symbol : String) (desired cur : Option ℚ) :
    Bool :=
  match desired, cur with
  | none, some _ => true
  | none, none => false
  | some _, none => true
  | some d, some c =>
    if normalize_price v symbol d = normalize_price v symbol c then false
    else true

/-- `need_modify` (lines 280–289): either the SL pair or the TP pair
mismatches; both comparisons use the reverse's symbol. -/
def need_modify (v : Venue) (orig_pos rev_pos : TradePosition) : Bool :=
  levelMismatch v rev_pos.symbol (desired_sltp_for_reverse orig_pos).1
      (current_sl rev_pos) ||
    levelMismatch v rev_pos.symbol (desired_sltp_for_reverse orig_pos).2
      (current_tp rev_pos)

/-! ## The polling cycle (`main`, lines 196–294) -/

/-- Engine state held across cycles: `orig_to_rev` and `reversed_once`
(lines 190–194). -/
structure EngineState where
  orig_to_rev : List (ℕ × ℕ)
  reversed_once : Finset ℕ
deriving DecidableEq

/-- The empty starting state (lines 190–194). -/
def initialState : EngineState := ⟨[], ∅⟩

/-- The open request built by `send_market_order` (lines 96–134) for an
original in Pass A (lines 229–234): double volume rounded to two decimals,
opposite order type, swapped SL/TP (normalized when present), the linking
comment and the bot's magic. -/
def openRequest (v : Venue) (op : TradePosition) (price : ℚ) : Command :=
  Command.openOrder op.symbol (reverse_type op.ptype)
    (roundToDigits 2 (op.volume * 2)) price
    ((desired_sltp_for_reverse op).1.map (normalize_price v op.symbol))
    ((desired_sltp_for_reverse op).2.map (normalize_price v op.symbol))
    (reverse_comment op.ticket) MAGIC

/-- The modify request built by `modify_position_sltp` (lines 136–150):
normalized levels with `0` for unset. -/
def modifyRequest (v : Venue) (rev_pos : TradePosition) (dsl dtp : Option ℚ) :
    Command :=
  Command.modifySLTP rev_pos.ticket rev_pos.symbol
    (match dsl with
     | some s => normalize_price v rev_pos.symbol s
     | none => 0)
    (match dtp with
     | some t => normalize_price v rev_pos.symbol t
     | none => 0)

/-- The close request built by `close_position` (lines 152–172): full
volume, opposite side, priced from the current tick. -/
def closeRequest (v : Venue) (rev_pos : TradePosition) : Command :=
  Command.closePos rev_pos.ticket rev_pos.symbol rev_pos.volume
    (if rev_pos.ptype = POSITION_TYPE_BUY then ORDER_TYPE_SELL
     else ORDER_TYPE_BUY)
    (price_from_tick v rev_pos.symbol rev_pos.ptype)

/-- One step of the comment-rebuild loop (lines 208–215): a reverse whose
comment parses re-links its original and marks it reversed-once. -/
def rebuildStep (st : EngineState) (rp : TradePosition) : EngineState :=
  match parse_original_ticket_from_comment rp.comment with
  | some orig_ticket =>
      ⟨alUpdate st.orig_to_rev orig_ticket rp.ticket,
       insert orig_ticket st.reversed_once⟩
  | none => st

/-- The comment-rebuild loop over the classified reverses (lines 208–215). -/
def rebuildState : EngineState → List TradePosition → EngineState
  | st, [] => st
  | st, rp :: rest => rebuildState (rebuildStep st rp) rest

/-- The settling-scan predicate (line 242): the new position is one of ours
and its comment parses back to the given original ticket. -/
def settleMatch (t : ℕ) (p : TradePosition) : Bool :=
  is_our_reverse p && (parse_original_ticket_from_comment p.comment == some t)

/-- Pass A body for one original (lines 218–246): skip if already reversed
once and unlinked, or already linked; otherwise check the symbol and tick,
send the open request, and on success link the reverse found by comment in
the settling query and mark the original reversed-once. -/
def passADelta (v : Venue) (st : EngineState) (op : TradePosition) :
    EngineState × List Command :=
  if op.ticket ∈ st.reversed_once ∧ alLookup st.orig_to_rev op.ticket = none
    then (st, [])
  else if alLookup st.orig_to_rev op.ticket = none then
    if ¬ ensure_symbol v op.symbol then (st, [])
    else
      match price_from_tick v op.symbol
          (if reverse_type op.ptype = ORDER_TYPE_BUY then POSITION_TYPE_BUY
           else POSITION_TYPE_SELL) with
      | none => (st, [])
      | some price =>
        match v.orderResult (openRequest v op price) with
        | none => (st, [openRequest v op price])
        | some _ =>
          match (v.settle op.symbol).find? (settleMatch op.ticket) with
          | some p =>
              (⟨alUpdate st.orig_to_rev op.ticket p.ticket,
                insert op.ticket st.reversed_once⟩, [openRequest v op price])
          | none => (st, [openRequest v op price])
  else (st, [])

/-- Pass A over the classified originals (lines 218–246). -/
def passARun (v : Venue) : EngineState → List TradePosition →
    EngineState × List Command
  | st, [] => (st, [])
  | st, op :: rest =>
    ((passARun v (passADelta v st op).1 rest).1,
     (passADelta v st op).2 ++ (passARun v (passADelta v st op).1 rest).2)

/-- The `pos_by_ticket` dict built from the second `positions_get()`
(line 252), later entries overwriting earlier ones. -/
def posByTicketAux : List (ℕ × TradePosition) → List TradePosition →
    List (ℕ × TradePosition)
  | m, [] => m
  | m, p :: rest => posByTicketAux (alUpdate m p.ticket p) rest

/-- `pos_by_ticket` (line 252). -/
def posByTicket (snap : List TradePosition) : List (ℕ × TradePosition) :=
  posByTicketAux [] snap

/-- Pass B commands for one tracked pair (lines 254–292): close the reverse
when the original is gone and the reverse lives; do nothing when the reverse
is gone; otherwise modify when `need_modify`. -/
def passBEntry (v : Venue) (byTicket : List (ℕ × TradePosition))
    (e : ℕ × ℕ) : List Command :=
  match alLookup byTicket e.1, alLookup byTicket e.2 with
  | none, some rev_pos => [closeRequest v rev_pos]
  | none, none => []
  | some _, none => []
  | some orig_pos, some rev_pos =>
    if need_modify v orig_pos rev_pos then
      [modifyRequest v rev_pos (desired_sltp_for_reverse orig_pos).1
        (desired_sltp_for_reverse orig_pos).2]
    else []

/-- Whether Pass B keeps a tracked pair: both the original and the reverse
are found in the live lookup (lines 258–270 pop the entry otherwise). -/
def passBKeep (byTicket : List (ℕ × TradePosition)) (e : ℕ × ℕ) : Bool :=
  (alLookup byTicket e.1).isSome && (alLookup byTicket e.2).isSome

/-- Pass B loop (lines 254–292): iterate over a frozen copy of the entries,
popping dead pairs from the live table and emitting the per-pair commands. -/
def passBRun (v : Venue) (byTicket : List (ℕ × TradePosition)) :
    List (ℕ × ℕ) → List (ℕ × ℕ) → List (ℕ × ℕ) × List Command
  | tbl, [] => (tbl, [])
  | tbl, e :: rest =>
    ((passBRun v byTicket
        (if passBKeep byTicket e then tbl else alErase tbl e.1) rest).1,
     passBEntry v byTicket e ++
       (passBRun v byTicket
         (if passBKeep byTicket e then tbl else alErase tbl e.1) rest).2)

/-- One polling cycle (lines 196–294): classify the snapshot, rebuild the
linkage from comments, run Pass A over the originals, then run Pass B over
the tracked pairs against the re-queried position map. -/
def cycle (v : Venue) (st : EngineState) (snap : List TradePosition) :
    EngineState × List Command :=
  let originals := snap.filter (fun p => !(is_our_reverse p))
  let reverses := snap.filter (fun p => is_our_reverse p)
  let st1 := rebuildState st reverses
  let pA := passARun v st1 originals
  let byTicket := posByTicket v.posAgain
  let pB := passBRun v byTicket pA.1.orig_to_rev pA.1.orig_to_rev
  (⟨pB.1, pA.1.reversed_once⟩, pA.2 ++ pB.2)

/-- A whole process run: a sequence of cycles, each with its own venue
responses and snapshot, threading the engine state. -/
def runCycles : EngineState → List (Venue × List TradePosition) →
    EngineState × List Command
  | st, [] => (st, [])
  | st, (v, snap) :: rest =>
    ((runCycles (cycle v st snap).1 rest).1,
     (cycle v st snap).2 ++ (runCycles (cycle v st snap).1 rest).2)

/-- Whether a command is an open request. -/
def isOpenCmd : Command → Bool
  | Command.openOrder _ _ _ _ _ _ _ _ => true
  | _ => false

/-- Whether a command is the open request for original ticket `t`
(identified by its linking comment). -/
def isOpenFor (t : ℕ) : Command → Bool
  | Command.openOrder _ _ _ _ _ _ c _ => c == reverse_comment t
  | _ => false

/-- Number of close commands aimed at position ticket `t`. -/
def closesFor (t : ℕ) (cmds : List Command) : ℕ :=
  (cmds.filter (fun c =>
    match c with
    | Command.closePos p _ _ _ _ => p == t
    | _ => false)).length

/-- Modelled from the spec: "compute reverse volume = 2 × original volume
(rounded to the instrument's accepted volume precision)". The source has no
per-instrument volume precision (it hard-codes two decimal places, line
229), so the spec's computation is modelled here for comparison, taking the
instrument's accepted volume precision as an argument. -/
def spec_reverse_volume (volumeDigits : ℕ) (originalVolume : ℚ) : ℚ :=
  roundToDigits volumeDigits (2 * originalVolume)

/-- Whether a position's comment parses to original ticket `k`. -/
def claimsTicket (k : ℕ) (rp : TradePosition) : Bool :=
  parse_original_ticket_from_comment rp.comment == some k

/-- The originals of a snapshot (lines 200–206): positions not classified
as our reverses, in snapshot order. -/
def cycleOriginals (snap : List TradePosition) : List TradePosition :=
  snap.filter (fun p => !(is_our_reverse p))

/-- The reverses of a snapshot (lines 200–206). -/
def cycleReverses (snap : List TradePosition) : List TradePosition :=
  snap.filter (fun p => is_our_reverse p)

/-- Engine state after the comment rebuild of a cycle (lines 208–215). -/
def stateAfterRebuild (st : EngineState) (snap : List TradePosition) :
    EngineState :=
  rebuildState st (cycleReverses snap)

/-- Engine state and commands after Pass A of a cycle (lines 217–246). -/
def afterPassA (v : Venue) (st : EngineState) (snap : List TradePosition) :
    EngineState × List Command :=
  passARun v (stateAfterRebuild st snap) (cycleOriginals snap)

/-- The tracked pairs Pass B iterates over (line 254). -/
def tableAtPassB (v : Venue) (st : EngineState) (snap : List TradePosition) :
    List (ℕ × ℕ) :=
  (afterPassA v st snap).1.orig_to_rev

/-- The tickets of a snapshot, in order. -/
def snapTickets (snap : List TradePosition) : List ℕ :=
  snap.map TradePosition.ticket

/-! ## Concrete scenarios used as witnesses and counterexamples -/

/-- A foreign original with stop-loss 1/2 and take-profit 3/4. -/
def w2orig : TradePosition := ⟨21, "X", 0, 1, 1 / 2, 3 / 4, 0, []⟩

/-- An original whose take-profit is 0.12342. -/
def w5op : TradePosition := ⟨31, "X", 0, 1, 1 / 2, 12342 / 100000, 0, []⟩

/-- Its managed reverse, stop-loss 0.12341 (same value at 4 digits). -/
def w5rv : TradePosition :=
  ⟨32, "X", 1, 2, 12341 / 100000, 1 / 2, MAGIC,
    COMMENT_PREFIX ++ ['3', '1']⟩

/-- The live-position lookup for the rounding-stability scenario. -/
def w5byT : List (ℕ × TradePosition) := [(31, w5op), (32, w5rv)]

/-- A venue reporting four price digits for every symbol. -/
def w5venue : Venue :=
  ⟨fun _ => some ⟨4, true⟩, fun _ => false, fun _ => none, fun _ => none,
   fun _ => [], []⟩

/-- A position carrying our magic but a non-matching comment. -/
def w10pos : TradePosition := ⟨9, "X", 0, 1, 0, 0, MAGIC, ['h', 'i']⟩

/-- A fully coöperative venue for the untagged-comment scenario. -/
def w10venue : Venue :=
  ⟨fun _ => some ⟨0, true⟩, fun _ => true, fun _ => some (2, 3),
   fun _ => none, fun _ => [], []⟩

/-- First reverse claiming original 5. -/
def c7revA : TradePosition :=
  ⟨11, "X", 1, 2, 0, 0, MAGIC, COMMENT_PREFIX ++ ['5']⟩

/-- Second reverse claiming original 5. -/
def c7revB : TradePosition :=
  ⟨12, "X", 1, 2, 0, 0, MAGIC, COMMENT_PREFIX ++ ['5']⟩

/-- Venue for the ambiguity scenario: both claimants live, original 5
absent. -/
def c7venue : Venue :=
  ⟨fun _ => some ⟨2, true⟩, fun _ => true, fun _ => some (3, 4),
   fun _ => none, fun _ => [], [c7revA, c7revB]⟩

/-- An original of volume 0.001 on an instrument whose accepted volume
precision is three decimals. -/
def c6orig : TradePosition := ⟨7, "X", 0, 1 / 1000, 0, 0, 0, []⟩

/-- Venue for the volume-rounding scenario (order submission fails so the
state is left unchanged). -/
def c6venue : Venue :=
  ⟨fun _ => some ⟨2, true⟩, fun _ => true, fun _ => some (3, 4),
   fun _ => none, fun _ => [], []⟩

/-- A live reverse annotated for the absent original 5. -/
def c4rev : TradePosition :=
  ⟨12, "EURUSD", 1, 2, 0, 0, MAGIC, COMMENT_PREFIX ++ ['5']⟩

/-- Venue for the repeat-cycle scenario: the close fails, nothing changes
venue-side. -/
def c4venue : Venue :=
  ⟨fun _ => some ⟨5, true⟩, fun _ => true, fun _ => some (1, 1),
   fun _ => none, fun _ => [], [c4rev]⟩

/-- A foreign original whose open submission will fail. -/
def c9orig : TradePosition := ⟨7, "X", 0, 1, 0, 0, 0, []⟩

/-- Venue for the open-failure scenario: `order_send` fails on every
request. -/
def c9venue : Venue :=
  ⟨fun _ => some ⟨2, true⟩, fun _ => true, fun _ => some (3, 4),
   fun _ => none, fun _ => [], [c9orig]⟩

end MT5Reverse

namespace MT5Reverse

/-! ## Association-list lemmas -/

theorem alLookup_alUpdate {α : Type} (l : List (ℕ × α)) (k k' : ℕ) (v : α) :
    alLookup (alUpdate l k v) k' = if k = k' then some v else alLookup l k' := by
  induction l with
  | nil => simp [alUpdate, alLookup]
  | cons e t ih =>
    rw [alUpdate]
    by_cases hek : e.1 = k
    · rw [if_pos hek]
      by_cases hkk : k = k' <;> simp [alLookup, hkk, hek]
    · rw [if_neg hek, alLookup]
      by_cases hek' : e.1 = k'
      · have hkk : ¬ k = k' := fun hk => hek (hek'.trans hk.symm)
        rw [if_pos hek', if_neg hkk, alLookup, if_pos hek']
      · rw [if_neg hek', ih]
        by_cases hkk : k = k' <;> simp [alLookup, hkk, hek']

theorem mem_alKeys_of_mem {α : Type} {l : List (ℕ × α)} {k : ℕ} {v : α}
    (h : (k, v) ∈ l) : k ∈ alKeys l := by
  induction l with
  | nil => simp at h
  | cons e t ih =>
    rcases List.mem_cons.mp h with h' | h'
    · rw [← h', alKeys]
      exact List.mem_cons_self _ _
    · exact List.mem_cons_of_mem _ (ih h')

theorem alLookup_isSome_iff {α : Type} (l : List (ℕ × α)) (k : ℕ) :
    (alLookup l k).isSome ↔ k ∈ alKeys l := by
  induction l with
  | nil => simp [alLookup, alKeys]
  | cons e t ih =>
    rw [alLookup, alKeys]
    by_cases h : e.1 = k
    · simp [h]
    · rw [if_neg h, List.mem_cons, ih]
      constructor
      · exact Or.inr
      · rintro (hk | hk)
        · exact absurd hk.symm h
        · exact hk

theorem alLookup_eq_none_iff {α : Type} (l : List (ℕ × α)) (k : ℕ) :
    alLookup l k = none ↔ k ∉ alKeys l := by
  rw [← alLookup_isSome_iff, Option.isSome_iff_ne_none]
  tauto

theorem mem_alKeys_alUpdate {α : Type} (l : List (ℕ × α)) (k k' : ℕ) (v : α) :
    k' ∈ alKeys (alUpdate l k v) ↔ k' = k ∨ k' ∈ alKeys l := by
  rw [← alLookup_isSome_iff, ← alLookup_isSome_iff, alLookup_alUpdate]
  by_cases hkk : k = k'
  · simp [hkk]
  · simp [hkk]
    exact fun h => absurd h.symm hkk

theorem alKeys_nodup_alUpdate {α : Type} (l : List (ℕ × α)) (k : ℕ) (v : α)
    (h : (alKeys l).Nodup) : (alKeys (alUpdate l k v)).Nodup := by
  induction l with
  | nil => simp [alUpdate, alKeys]
  | cons e t ih =>
    rw [alKeys, List.nodup_cons] at h
    rw [alUpdate]
    by_cases hek : e.1 = k
    · rw [if_pos hek, alKeys, List.nodup_cons]
      exact ⟨hek ▸ h.1, h.2⟩
    · rw [if_neg hek, alKeys, List.nodup_cons]
      refine ⟨fun hmem => ?_, ih h.2⟩
      rcases (mem_alKeys_alUpdate t k e.1 v).mp hmem with h' | h'
      · exact hek h'
      · exact h.1 h'

theorem alLookup_mem {α : Type} (l : List (ℕ × α)) (k : ℕ) (v : α)
    (h : alLookup l k = some v) : (k, v) ∈ l := by
  induction l with
  | nil => simp [alLookup] at h
  | cons e t ih =>
    obtain ⟨e1, e2⟩ := e
    by_cases he : e1 = k
    · simp [alLookup, he] at h
      rw [he, h]
      exact List.mem_cons_self _ _
    · simp only [alLookup] at h
      rw [if_neg he] at h
      exact List.mem_cons_of_mem _ (ih h)

theorem mem_alLookup {α : Type} (l : List (ℕ × α)) (k : ℕ) (v : α)
    (hnd : (alKeys l).Nodup) (h : (k, v) ∈ l) : alLookup l k = some v := by
  induction l with
  | nil => simp at h
  | cons e t ih =>
    obtain ⟨e1, e2⟩ := e
    rw [alKeys, List.nodup_cons] at hnd
    rcases List.mem_cons.mp h with h' | h'
    · have hk : k = e1 := congrArg Prod.fst h'
      have hv : v = e2 := congrArg Prod.snd h'
      simp only [alLookup]
      rw [if_pos hk.symm, hv]
    · have hek : e1 ≠ k := by
        intro hk
        exact hnd.1 (hk ▸ mem_alKeys_of_mem h')
      simp only [alLookup]
      rw [if_neg hek]
      exact ih hnd.2 h'

theorem alErase_eq_filter {α : Type} (l : List (ℕ × α)) (k : ℕ)
    (hnd : (alKeys l).Nodup) :
    alErase l k = l.filter (fun e => decide (e.1 ≠ k)) := by
  induction l with
  | nil => simp [alErase]
  | cons e t ih =>
    rw [alKeys, List.nodup_cons] at hnd
    rw [alErase, List.filter_cons]
    by_cases he : e.1 = k
    · have hp : (decide (e.1 ≠ k)) = false := by simp [he]
      rw [if_pos he, hp]
      simp only [Bool.false_eq_true, if_false]
      refine (List.filter_eq_self.mpr ?_).symm
      intro a ha
      simp only [decide_eq_true_eq]
      intro hak
      apply hnd.1
      have hm := mem_alKeys_of_mem ha
      rwa [hak, ← he] at hm
    · have hp : (decide (e.1 ≠ k)) = true := by simp [he]
      rw [if_neg he, hp, if_pos rfl, ih hnd.2]

theorem alKeys_alErase_sub {α : Type} (l : List (ℕ × α)) (k k' : ℕ)
    (h : k' ∈ alKeys (alErase l k)) : k' ∈ alKeys l := by
  induction l with
  | nil => simpa [alErase] using h
  | cons e t ih =>
    rw [alErase] at h
    by_cases he : e.1 = k
    · rw [if_pos he] at h
      exact List.mem_cons_of_mem _ h
    · rw [if_neg he, alKeys] at h
      rcases List.mem_cons.mp h with h' | h'
      · exact h' ▸ List.mem_cons_self _ _
      · exact List.mem_cons_of_mem _ (ih h')

theorem alKeys_nodup_alErase {α : Type} (l : List (ℕ × α)) (k : ℕ)
    (hnd : (alKeys l).Nodup) : (alKeys (alErase l k)).Nodup := by
  induction l with
  | nil => simp [alErase, alKeys]
  | cons e t ih =>
    rw [alKeys, List.nodup_cons] at hnd
    rw [alErase]
    by_cases he : e.1 = k
    · rw [if_pos he]
      exact hnd.2
    · rw [if_neg he, alKeys, List.nodup_cons]
      exact ⟨fun hm => hnd.1 (alKeys_alErase_sub t k e.1 hm), ih hnd.2⟩

theorem alLookup_alErase_ne {α : Type} (l : List (ℕ × α)) (k k' : ℕ)
    (h : k' ≠ k) : alLookup (alErase l k) k' = alLookup l k' := by
  induction l with
  | nil => simp [alErase]
  | cons e t ih =>
    rw [alErase]
    by_cases he : e.1 = k
    · rw [if_pos he, alLookup, if_neg (fun hh => h (hh.symm.trans he))]
    · rw [if_neg he, alLookup, alLookup, ih]

theorem alLookup_alErase_self {α : Type} (l : List (ℕ × α)) (k : ℕ)
    (hnd : (alKeys l).Nodup) : alLookup (alErase l k) k = none := by
  induction l with
  | nil => simp [alErase, alLookup]
  | cons e t ih =>
    rw [alKeys, List.nodup_cons] at hnd
    rw [alErase]
    by_cases he : e.1 = k
    · rw [if_pos he]
      exact (alLookup_eq_none_iff t k).mpr (he ▸ hnd.1)
    · rw [if_neg he, alLookup, if_neg he]
      exact ih hnd.2

theorem alUpdate_eq_append {α : Type} (l : List (ℕ × α)) (k : ℕ) (v : α)
    (h : alLookup l k = none) : alUpdate l k v = l ++ [(k, v)] := by
  induction l with
  | nil => simp [alUpdate]
  | cons e t ih =>
    rw [alLookup] at h
    by_cases he : e.1 = k
    · rw [if_pos he] at h
      simp at h
    · rw [if_neg he] at h
      rw [alUpdate, if_neg he, ih h, List.cons_append]

end MT5Reverse

namespace MT5Reverse

/-! ## Comment encoding lemmas -/

theorem pyDigitsVal_concat (l : List Char) (c : Char) :
    pyDigitsVal (l ++ [c]) = pyDigitsVal l * 10 + pyDigitVal c := by
  simp [pyDigitsVal, List.foldl_append]

theorem char_digit_pyDigitVal (d : ℕ) (hd : d < 10) :
    pyDigitVal (Char.ofNat (48 + d)) = d := by
  interval_cases d <;> decide

theorem char_digit_isPyDigit (d : ℕ) (hd : d < 10) :
    isPyDigit (Char.ofNat (48 + d)) = true := by
  interval_cases d <;> decide

theorem natToCharsAux_spec (fuel : ℕ) :
    ∀ n, n ≤ fuel →
      pyDigitsVal (natToCharsAux fuel n) = n ∧
        ∀ c ∈ natToCharsAux fuel n, isPyDigit c := by
  induction fuel with
  | zero =>
    intro n hn
    interval_cases n
    simp [natToCharsAux, pyDigitsVal]
  | succ f ih =>
    intro n hn
    match n with
    | 0 => simp [natToCharsAux, pyDigitsVal]
    | m + 1 =>
      have hdiv : (m + 1) / 10 ≤ f := by omega
      obtain ⟨h1, h2⟩ := ih ((m + 1) / 10) hdiv
      have hmod : (m + 1) % 10 < 10 := Nat.mod_lt _ (by norm_num)
      constructor
      · rw [natToCharsAux, pyDigitsVal_concat, h1,
          char_digit_pyDigitVal _ hmod]
        omega
      · intro c hc
        rw [natToCharsAux] at hc
        rcases List.mem_append.mp hc with h | h
        · exact h2 c h
        · rw [List.mem_singleton] at h
          rw [h]
          exact char_digit_isPyDigit _ hmod

theorem pyDigitsVal_natToChars (n : ℕ) : pyDigitsVal (natToChars n) = n := by
  by_cases h : n = 0
  · subst h
    decide
  · rw [natToChars, if_neg h]
    exact (natToCharsAux_spec n n le_rfl).1

theorem natToChars_all_pyDigits (n : ℕ) :
    ∀ c ∈ natToChars n, isPyDigit c := by
  by_cases h : n = 0
  · subst h
    intro c hc
    rw [natToChars] at hc
    simp at hc
    rw [hc]
    decide
  · rw [natToChars, if_neg h]
    exact (natToCharsAux_spec n n le_rfl).2

theorem natToChars_ne_nil (n : ℕ) : natToChars n ≠ [] := by
  by_cases h : n = 0
  · subst h
    decide
  · rw [natToChars, if_neg h]
    obtain ⟨m, rfl⟩ : ∃ m, n = m + 1 := ⟨n - 1, by omega⟩
    simp [natToCharsAux]

theorem digit_run_no_newline (ds : List Char)
    (hdig : ∀ c ∈ ds, isPyDigit c) :
    ds.getLast? ≠ some (Char.ofNat 10) := by
  intro hl
  have hne : ds ≠ [] := by
    intro hnil
    rw [hnil] at hl
    simp at hl
  rw [List.getLast?_eq_getLast ds hne] at hl
  have hmem : ds.getLast hne ∈ ds := List.getLast_mem hne
  have := hdig _ hmem
  rw [Option.some.inj hl] at this
  exact absurd this (by decide)

theorem parse_concat_digits (ds : List Char) (hne : ds ≠ [])
    (hdig : ∀ c ∈ ds, isPyDigit c) :
    parse_original_ticket_from_comment (COMMENT_PREFIX ++ ds) =
      some (pyDigitsVal ds) := by
  rw [parse_original_ticket_from_comment]
  rw [if_pos (List.prefix_append _ _)]
  simp only [List.drop_left]
  rw [if_neg (digit_run_no_newline ds hdig)]
  rw [if_pos ⟨hne, hdig⟩]

theorem parse_concat_digits_newline (ds : List Char) (hne : ds ≠ [])
    (hdig : ∀ c ∈ ds, isPyDigit c) :
    parse_original_ticket_from_comment
        (COMMENT_PREFIX ++ ds ++ [Char.ofNat 10]) =
      some (pyDigitsVal ds) := by
  rw [List.append_assoc, parse_original_ticket_from_comment]
  rw [if_pos (List.prefix_append _ _)]
  simp only [List.drop_left]
  rw [if_pos (List.getLast?_concat _)]
  rw [List.dropLast_concat]
  rw [if_pos ⟨hne, hdig⟩]

theorem parse_reverse_comment (n : ℕ) :
    parse_original_ticket_from_comment (reverse_comment n) = some n := by
  rw [reverse_comment,
    parse_concat_digits _ (natToChars_ne_nil n) (natToChars_all_pyDigits n),
    pyDigitsVal_natToChars]

theorem parse_some_inv (cs : List Char) (n : ℕ)
    (h : parse_original_ticket_from_comment cs = some n) :
    ∃ ds, (cs = COMMENT_PREFIX ++ ds ∨
        cs = COMMENT_PREFIX ++ ds ++ [Char.ofNat 10]) ∧ ds ≠ [] ∧
      (∀ c ∈ ds, isPyDigit c) ∧ pyDigitsVal ds = n := by
  rw [parse_original_ticket_from_comment] at h
  by_cases h1 : COMMENT_PREFIX <+: cs
  · rw [if_pos h1] at h
    obtain ⟨tl, rfl⟩ := h1
    simp only [List.drop_left] at h
    by_cases hnl : tl.getLast? = some (Char.ofNat 10)
    · rw [if_pos hnl] at h
      by_cases h2 : tl.dropLast ≠ [] ∧ ∀ c ∈ tl.dropLast, isPyDigit c
      · rw [if_pos h2] at h
        have hne : tl ≠ [] := by
          intro hnil
          rw [hnil] at hnl
          simp at hnl
        have hlast : tl.getLast hne = Char.ofNat 10 := by
          rw [List.getLast?_eq_getLast tl hne] at hnl
          exact Option.some.inj hnl
        have htl : tl.dropLast ++ [Char.ofNat 10] = tl := by
          rw [← hlast]
          exact List.dropLast_append_getLast hne
        refine ⟨tl.dropLast, Or.inr ?_, h2.1, h2.2, Option.some.inj h⟩
        rw [List.append_assoc, htl]
      · rw [if_neg h2] at h
        exact absurd h (by simp)
    · rw [if_neg hnl] at h
      by_cases h2 : tl ≠ [] ∧ ∀ c ∈ tl, isPyDigit c
      · rw [if_pos h2] at h
        exact ⟨tl, Or.inl rfl, h2.1, h2.2, Option.some.inj h⟩
      · rw [if_neg h2] at h
        exact absurd h (by simp)
  · rw [if_neg h1] at h
    exact absurd h (by simp)

theorem reverse_comment_inj {a b : ℕ}
    (h : reverse_comment a = reverse_comment b) : a = b := by
  have ha := parse_reverse_comment a
  rw [h, parse_reverse_comment] at ha
  exact (Option.some.inj ha).symm

end MT5Reverse

namespace MT5Reverse

/-! ## Decomposing a cycle -/

theorem cycle_eq (v : Venue) (st : EngineState) (snap : List TradePosition) :
    cycle v st snap =
      (⟨(passBRun v (posByTicket v.posAgain) (tableAtPassB v st snap)
            (tableAtPassB v st snap)).1,
        (afterPassA v st snap).1.reversed_once⟩,
       (afterPassA v st snap).2 ++
         (passBRun v (posByTicket v.posAgain) (tableAtPassB v st snap)
            (tableAtPassB v st snap)).2) := rfl

end MT5Reverse

namespace MT5Reverse

/-! ## Rebuild lemmas -/

theorem rebuildState_lookup (rs : List TradePosition) :
    ∀ (st : EngineState) (k : ℕ),
      alLookup (rebuildState st rs).orig_to_rev k =
        match rs.reverse.find? (claimsTicket k) with
        | some rp => some rp.ticket
        | none => alLookup st.orig_to_rev k := by
  induction rs with
  | nil =>
    intro st k
    simp [rebuildState]
  | cons rp rest ih =>
    intro st k
    rw [rebuildState, ih, List.reverse_cons, List.find?_append]
    cases hf : rest.reverse.find? (claimsTicket k) with
    | some rp' => simp [hf]
    | none =>
      rw [Option.none_or]
      cases hcl : claimsTicket k rp with
      | true =>
        have hp : parse_original_ticket_from_comment rp.comment = some k := by
          rw [claimsTicket] at hcl
          exact beq_iff_eq.mp hcl
        have hstep : (rebuildStep st rp).orig_to_rev =
            alUpdate st.orig_to_rev k rp.ticket := by
          simp [rebuildStep, hp]
        simp [List.find?, hcl, hstep, alLookup_alUpdate]
      | false =>
        have hstep : alLookup (rebuildStep st rp).orig_to_rev k =
            alLookup st.orig_to_rev k := by
          rw [rebuildStep]
          cases hp : parse_original_ticket_from_comment rp.comment with
          | none => rfl
          | some j =>
            have hjk : ¬ j = k := by
              intro hj
              rw [claimsTicket, hp, hj] at hcl
              simp at hcl
            simp [alLookup_alUpdate, hjk]
        simp [List.find?, hcl, hstep]

theorem rebuildState_set_mem (rs : List TradePosition) :
    ∀ (st : EngineState) (k : ℕ),
      k ∈ (rebuildState st rs).reversed_once ↔
        k ∈ st.reversed_once ∨
          ∃ rp ∈ rs, parse_original_ticket_from_comment rp.comment = some k := by
  induction rs with
  | nil =>
    intro st k
    simp [rebuildState]
  | cons rp rest ih =>
    intro st k
    rw [rebuildState, ih]
    cases hp : parse_original_ticket_from_comment rp.comment with
    | none =>
      have hstep : rebuildStep st rp = st := by simp [rebuildStep, hp]
      rw [hstep]
      constructor
      · rintro (h | ⟨x, hx, hpx⟩)
        · exact Or.inl h
        · exact Or.inr ⟨x, List.mem_cons_of_mem _ hx, hpx⟩
      · rintro (h | ⟨x, hx, hpx⟩)
        · exact Or.inl h
        · rcases List.mem_cons.mp hx with h' | h'
          · subst h'
            rw [hp] at hpx
            exact absurd hpx (by simp)
          · exact Or.inr ⟨x, h', hpx⟩
    | some j =>
      have hstep : (rebuildStep st rp).reversed_once =
          insert j st.reversed_once := by
        simp [rebuildStep, hp]
      rw [hstep]
      constructor
      · rintro (h | ⟨x, hx, hpx⟩)
        · rcases Finset.mem_insert.mp h with h' | h'
          · refine Or.inr ⟨rp, List.mem_cons_self _ _, ?_⟩
            rw [hp, h']
          · exact Or.inl h'
        · exact Or.inr ⟨x, List.mem_cons_of_mem _ hx, hpx⟩
      · rintro (h | ⟨x, hx, hpx⟩)
        · exact Or.inl (Finset.mem_insert_of_mem h)
        · rcases List.mem_cons.mp hx with h' | h'
          · subst h'
            rw [hp] at hpx
            exact Or.inl (Finset.mem_insert.mpr
              (Or.inl (Option.some.inj hpx).symm))
          · exact Or.inr ⟨x, h', hpx⟩

theorem rebuildState_set_sub (rs : List TradePosition) (st : EngineState) :
    st.reversed_once ⊆ (rebuildState st rs).reversed_once := by
  intro k hk
  exact (rebuildState_set_mem rs st k).mpr (Or.inl hk)

theorem rebuildState_keys_nodup (rs : List TradePosition) :
    ∀ (st : EngineState), (alKeys st.orig_to_rev).Nodup →
      (alKeys (rebuildState st rs).orig_to_rev).Nodup := by
  induction rs with
  | nil =>
    intro st h
    exact h
  | cons rp rest ih =>
    intro st h
    rw [rebuildState]
    refine ih _ ?_
    rw [rebuildStep]
    cases hp : parse_original_ticket_from_comment rp.comment with
    | none => exact h
    | some j => exact alKeys_nodup_alUpdate _ _ _ h

theorem rebuildState_keys_mem (rs : List TradePosition) :
    ∀ (st : EngineState) (k : ℕ),
      k ∈ alKeys (rebuildState st rs).orig_to_rev ↔
        k ∈ alKeys st.orig_to_rev ∨
          ∃ rp ∈ rs, parse_original_ticket_from_comment rp.comment = some k := by
  intro st k
  rw [← alLookup_isSome_iff, ← alLookup_isSome_iff, rebuildState_lookup]
  cases hf : rs.reverse.find? (claimsTicket k) with
  | some rp =>
    have h0 : claimsTicket k rp = true := List.find?_some hf
    rw [claimsTicket] at h0
    have h1 : parse_original_ticket_from_comment rp.comment = some k :=
      beq_iff_eq.mp h0
    have h2 : rp ∈ rs := List.mem_reverse.mp (List.mem_of_find?_eq_some hf)
    simp only [Option.isSome_some, true_iff]
    exact Or.inr ⟨rp, h2, h1⟩
  | none =>
    constructor
    · exact Or.inl
    · rintro (h | ⟨x, hx, hpx⟩)
      · exact h
      · have := List.find?_eq_none.mp hf x (List.mem_reverse.mpr hx)
        rw [claimsTicket, hpx] at this
        simp at this

/-! ## Position-map lemmas -/

theorem posByTicketAux_lookup (snap : List TradePosition) :
    ∀ (m : List (ℕ × TradePosition)) (t : ℕ),
      alLookup (posByTicketAux m snap) t =
        match snap.reverse.find? (fun p => p.ticket == t) with
        | some p => some p
        | none => alLookup m t := by
  induction snap with
  | nil =>
    intro m t
    simp [posByTicketAux]
  | cons p rest ih =>
    intro m t
    rw [posByTicketAux, ih, List.reverse_cons, List.find?_append]
    cases hf : rest.reverse.find? (fun q => q.ticket == t) with
    | some q => simp [hf]
    | none =>
      rw [Option.none_or]
      cases hpt : (p.ticket == t) with
      | true =>
        have : p.ticket = t := beq_iff_eq.mp hpt
        simp [List.find?, hpt, alLookup_alUpdate, this]
      | false =>
        have : ¬ p.ticket = t := by
          intro hh
          rw [hh] at hpt
          simp at hpt
        simp [List.find?, hpt, alLookup_alUpdate, this]

theorem posByTicket_lookup (snap : List TradePosition) (t : ℕ) :
    alLookup (posByTicket snap) t =
      (snap.reverse.find? (fun p => p.ticket == t)) := by
  rw [posByTicket, posByTicketAux_lookup]
  cases hf : snap.reverse.find? (fun p => p.ticket == t) <;> simp [alLookup]

theorem posByTicket_lookup_some (snap : List TradePosition) (t : ℕ)
    (p : TradePosition) (h : alLookup (posByTicket snap) t = some p) :
    p.ticket = t ∧ p ∈ snap := by
  rw [posByTicket_lookup] at h
  have h0 := List.find?_some h
  exact ⟨beq_iff_eq.mp h0,
    List.mem_reverse.mp (List.mem_of_find?_eq_some h)⟩

theorem posByTicket_lookup_none (snap : List TradePosition) (t : ℕ)
    (h : ∀ p ∈ snap, p.ticket ≠ t) :
    alLookup (posByTicket snap) t = none := by
  rw [posByTicket_lookup]
  rw [List.find?_eq_none]
  intro p hp
  simp only [beq_iff_eq]
  exact h p (List.mem_reverse.mp hp)

theorem posByTicket_lookup_self (snap : List TradePosition)
    (p : TradePosition) (hnd : (snapTickets snap).Nodup) (hm : p ∈ snap) :
    alLookup (posByTicket snap) p.ticket = some p := by
  rw [posByTicket_lookup]
  cases hf : snap.reverse.find? (fun q => q.ticket == p.ticket) with
  | none =>
    have := List.find?_eq_none.mp hf p (List.mem_reverse.mpr hm)
    simp at this
  | some q =>
    have h0 := List.find?_some hf
    have h1 : q.ticket = p.ticket := beq_iff_eq.mp h0
    have h2 : q ∈ snap := List.mem_reverse.mp (List.mem_of_find?_eq_some hf)
    rw [List.inj_on_of_nodup_map hnd h2 hm h1]

theorem posByTicket_lookup_isSome (snap : List TradePosition) (t : ℕ)
    (hnd : (snapTickets snap).Nodup) :
    (alLookup (posByTicket snap) t).isSome ↔ t ∈ snapTickets snap := by
  constructor
  · intro h
    obtain ⟨p, hp⟩ := Option.isSome_iff_exists.mp h
    obtain ⟨h1, h2⟩ := posByTicket_lookup_some snap t p hp
    exact h1 ▸ List.mem_map.mpr ⟨p, h2, rfl⟩
  · intro h
    obtain ⟨p, hp, hpt⟩ := List.mem_map.mp h
    rw [← hpt, posByTicket_lookup_self snap p hnd hp]
    rfl

end MT5Reverse

namespace MT5Reverse

/-! ## More association-list lemmas -/

theorem alLookup_append {α : Type} (l₁ l₂ : List (ℕ × α)) (k : ℕ) :
    alLookup (l₁ ++ l₂) k = (alLookup l₁ k).or (alLookup l₂ k) := by
  induction l₁ with
  | nil => simp [alLookup]
  | cons e t ih =>
    rw [List.cons_append, alLookup, alLookup]
    by_cases he : e.1 = k
    · simp [he]
    · simp [he, ih]

theorem alKeys_append {α : Type} (l₁ l₂ : List (ℕ × α)) :
    alKeys (l₁ ++ l₂) = alKeys l₁ ++ alKeys l₂ := by
  induction l₁ with
  | nil => simp [alKeys]
  | cons e t ih => rw [List.cons_append, alKeys, alKeys, ih, List.cons_append]

/-! ## Pass A single-step lemmas -/

theorem passADelta_spec (v : Venue) (st : EngineState) (op : TradePosition) :
    passADelta v st op = (st, []) ∨
      (alLookup st.orig_to_rev op.ticket = none ∧
        op.ticket ∉ st.reversed_once ∧
        ∃ price,
          (passADelta v st op = (st, [openRequest v op price]) ∨
            ∃ rt, passADelta v st op =
              (⟨st.orig_to_rev ++ [(op.ticket, rt)],
                insert op.ticket st.reversed_once⟩,
               [openRequest v op price]))) := by
  rw [passADelta]
  by_cases hset : op.ticket ∈ st.reversed_once ∧
      alLookup st.orig_to_rev op.ticket = none
  · rw [if_pos hset]
    exact Or.inl rfl
  · rw [if_neg hset]
    by_cases hlk : alLookup st.orig_to_rev op.ticket = none
    · rw [if_pos hlk]
      have hnset : op.ticket ∉ st.reversed_once := fun hin => hset ⟨hin, hlk⟩
      by_cases hens : ensure_symbol v op.symbol = true
      · rw [if_neg (fun hc => hc hens)]
        cases htick : price_from_tick v op.symbol
            (if reverse_type op.ptype = ORDER_TYPE_BUY then POSITION_TYPE_BUY
             else POSITION_TYPE_SELL) with
        | none => exact Or.inl rfl
        | some price =>
          dsimp only
          cases hres : v.orderResult (openRequest v op price) with
          | none => exact Or.inr ⟨hlk, hnset, price, Or.inl rfl⟩
          | some k =>
            dsimp only
            cases hfind : (v.settle op.symbol).find?
                (settleMatch op.ticket) with
            | none => exact Or.inr ⟨hlk, hnset, price, Or.inl rfl⟩
            | some p =>
              dsimp only
              refine Or.inr ⟨hlk, hnset, price, Or.inr ⟨p.ticket, ?_⟩⟩
              rw [alUpdate_eq_append _ _ _ hlk]
      · rw [if_pos hens]
        exact Or.inl rfl
    · rw [if_neg hlk]
      exact Or.inl rfl

theorem passADelta_of_mem_set (v : Venue) (st : EngineState)
    (op : TradePosition) (h : op.ticket ∈ st.reversed_once) :
    passADelta v st op = (st, []) := by
  rcases passADelta_spec v st op with hs | ⟨_, hns, _⟩
  · exact hs
  · exact absurd h hns

theorem passADelta_cmds (v : Venue) (st : EngineState) (op : TradePosition) :
    (passADelta v st op).2 = [] ∨
      ∃ price, (passADelta v st op).2 = [openRequest v op price] := by
  rcases passADelta_spec v st op with hs | ⟨_, _, price, hs | ⟨rt, hs⟩⟩
  · rw [hs]
    exact Or.inl rfl
  · rw [hs]
    exact Or.inr ⟨price, rfl⟩
  · rw [hs]
    exact Or.inr ⟨price, rfl⟩

theorem passADelta_state (v : Venue) (st : EngineState) (op : TradePosition) :
    (passADelta v st op).1 = st ∨
      (alLookup st.orig_to_rev op.ticket = none ∧
        ∃ rt, (passADelta v st op).1 =
          ⟨st.orig_to_rev ++ [(op.ticket, rt)],
            insert op.ticket st.reversed_once⟩) := by
  rcases passADelta_spec v st op with hs | ⟨hlk, _, price, hs | ⟨rt, hs⟩⟩
  · rw [hs]
    exact Or.inl rfl
  · rw [hs]
    exact Or.inl rfl
  · rw [hs]
    exact Or.inr ⟨hlk, rt, rfl⟩

theorem passADelta_zero (v : Venue) (st : EngineState) (op : TradePosition)
    (h : (passADelta v st op).2 = []) : (passADelta v st op).1 = st := by
  rcases passADelta_spec v st op with hs | ⟨_, _, price, hs | ⟨rt, hs⟩⟩
  · rw [hs]
  · rw [hs] at h
    simp at h
  · rw [hs] at h
    simp at h

theorem passADelta_set_sub (v : Venue) (st : EngineState)
    (op : TradePosition) :
    st.reversed_once ⊆ (passADelta v st op).1.reversed_once := by
  rcases passADelta_state v st op with hs | ⟨_, rt, hs⟩
  · rw [hs]
  · rw [hs]
    exact Finset.subset_insert _ _

theorem passADelta_set_mem (v : Venue) (st : EngineState)
    (op : TradePosition) (k : ℕ)
    (h : k ∈ (passADelta v st op).1.reversed_once) :
    k ∈ st.reversed_once ∨ k = op.ticket := by
  rcases passADelta_state v st op with hs | ⟨_, rt, hs⟩
  · rw [hs] at h
    exact Or.inl h
  · rw [hs] at h
    rcases Finset.mem_insert.mp h with h' | h'
    · exact Or.inr h'
    · exact Or.inl h'

theorem passADelta_lookup_ne (v : Venue) (st : EngineState)
    (op : TradePosition) (k : ℕ) (hk : k ≠ op.ticket) :
    alLookup (passADelta v st op).1.orig_to_rev k =
      alLookup st.orig_to_rev k := by
  rcases passADelta_state v st op with hs | ⟨_, rt, hs⟩
  · rw [hs]
  · rw [hs]
    simp only
    rw [alLookup_append, alLookup, if_neg (fun hh => hk hh.symm)]
    cases alLookup st.orig_to_rev k <;> simp [alLookup]

theorem passADelta_keys_mem (v : Venue) (st : EngineState)
    (op : TradePosition) (k : ℕ)
    (h : k ∈ alKeys (passADelta v st op).1.orig_to_rev) :
    k ∈ alKeys st.orig_to_rev ∨ k = op.ticket := by
  rcases passADelta_state v st op with hs | ⟨_, rt, hs⟩
  · rw [hs] at h
    exact Or.inl h
  · rw [hs] at h
    simp only at h
    rw [alKeys_append] at h
    rcases List.mem_append.mp h with h' | h'
    · exact Or.inl h'
    · rw [alKeys, alKeys] at h'
      rcases List.mem_cons.mp h' with h'' | h''
      · exact Or.inr h''
      · simp at h''

theorem passADelta_keys_nodup (v : Venue) (st : EngineState)
    (op : TradePosition) (h : (alKeys st.orig_to_rev).Nodup) :
    (alKeys (passADelta v st op).1.orig_to_rev).Nodup := by
  rcases passADelta_state v st op with hs | ⟨hlk, rt, hs⟩
  · rw [hs]
    exact h
  · rw [hs]
    simp only
    rw [alKeys_append, alKeys, alKeys]
    refine List.Nodup.append h (by simp) ?_
    intro a ha hb
    simp at hb
    rw [hb] at ha
    exact (alLookup_eq_none_iff _ _).mp hlk ha

theorem passADelta_open (v : Venue) (st : EngineState) (op : TradePosition)
    (price : ℚ)
    (h1 : op.ticket ∉ st.reversed_once)
    (h2 : alLookup st.orig_to_rev op.ticket = none)
    (h3 : ensure_symbol v op.symbol = true)
    (h4 : price_from_tick v op.symbol
        (if reverse_type op.ptype = ORDER_TYPE_BUY then POSITION_TYPE_BUY
         else POSITION_TYPE_SELL) = some price) :
    (passADelta v st op).2 = [openRequest v op price] := by
  rw [passADelta]
  rw [if_neg (fun hc => h1 hc.1), if_pos h2, if_neg (fun hc => hc h3), h4]
  dsimp only
  cases hres : v.orderResult (openRequest v op price) with
  | none => rfl
  | some k =>
    dsimp only
    cases hfind : (v.settle op.symbol).find? (settleMatch op.ticket) with
    | none => rfl
    | some p => rfl

theorem passADelta_state_of_fail (v : Venue) (st : EngineState)
    (op : TradePosition)
    (hfail : ∀ price, v.orderResult (openRequest v op price) = none ∨
      (v.settle op.symbol).find? (settleMatch op.ticket) = none) :
    (passADelta v st op).1 = st := by
  rw [passADelta]
  by_cases hset : op.ticket ∈ st.reversed_once ∧
      alLookup st.orig_to_rev op.ticket = none
  · rw [if_pos hset]
  · rw [if_neg hset]
    by_cases hlk : alLookup st.orig_to_rev op.ticket = none
    · rw [if_pos hlk]
      by_cases hens : ensure_symbol v op.symbol = true
      · rw [if_neg (fun hc => hc hens)]
        cases htick : price_from_tick v op.symbol
            (if reverse_type op.ptype = ORDER_TYPE_BUY then POSITION_TYPE_BUY
             else POSITION_TYPE_SELL) with
        | none => rfl
        | some price =>
          dsimp only
          cases hres : v.orderResult (openRequest v op price) with
          | none => rfl
          | some k =>
            dsimp only
            cases hfind : (v.settle op.symbol).find?
                (settleMatch op.ticket) with
            | none => rfl
            | some p =>
              rcases hfail price with hf | hf
              · rw [hres] at hf
                exact absurd hf (by simp)
              · rw [hfind] at hf
                exact absurd hf (by simp)
      · rw [if_pos hens]
    · rw [if_neg hlk]

end MT5Reverse

namespace MT5Reverse

/-! ## Pass A loop lemmas -/

theorem passARun_set_sub (v : Venue) :
    ∀ (ops : List TradePosition) (st : EngineState),
      st.reversed_once ⊆ (passARun v st ops).1.reversed_once := by
  intro ops
  induction ops with
  | nil =>
    intro st
    rw [passARun]
  | cons op rest ih =>
    intro st
    rw [passARun]
    exact (passADelta_set_sub v st op).trans (ih _)

theorem passARun_zero (v : Venue) :
    ∀ (ops : List TradePosition) (st : EngineState),
      (passARun v st ops).2 = [] → (passARun v st ops).1 = st := by
  intro ops
  induction ops with
  | nil =>
    intro st _
    rw [passARun]
  | cons op rest ih =>
    intro st h
    rw [passARun] at h ⊢
    simp only [List.append_eq_nil] at h
    have hd := passADelta_zero v st op h.1
    rw [hd] at h ⊢
    exact ih st h.2

theorem passARun_set_mem (v : Venue) :
    ∀ (ops : List TradePosition) (st : EngineState) (k : ℕ),
      k ∈ (passARun v st ops).1.reversed_once →
        k ∈ st.reversed_once ∨ k ∈ snapTickets ops := by
  intro ops
  induction ops with
  | nil =>
    intro st k h
    rw [passARun] at h
    exact Or.inl h
  | cons op rest ih =>
    intro st k h
    rw [passARun] at h
    rcases ih _ k h with h' | h'
    · rcases passADelta_set_mem v st op k h' with h'' | h''
      · exact Or.inl h''
      · exact Or.inr (h'' ▸ List.mem_cons_self _ _)
    · exact Or.inr (List.mem_cons_of_mem _ h')

theorem passARun_lookup_ne (v : Venue) :
    ∀ (ops : List TradePosition) (st : EngineState) (k : ℕ),
      k ∉ snapTickets ops →
      alLookup (passARun v st ops).1.orig_to_rev k =
        alLookup st.orig_to_rev k := by
  intro ops
  induction ops with
  | nil =>
    intro st k _
    rw [passARun]
  | cons op rest ih =>
    intro st k hk
    rw [snapTickets, List.map_cons] at hk
    have h1 : k ≠ op.ticket := fun h => hk (h ▸ List.mem_cons_self _ _)
    have h2 : k ∉ snapTickets rest :=
      fun h => hk (List.mem_cons_of_mem _ h)
    rw [passARun, ih _ k h2, passADelta_lookup_ne v st op k h1]

theorem passARun_keys_mem (v : Venue) :
    ∀ (ops : List TradePosition) (st : EngineState) (k : ℕ),
      k ∈ alKeys (passARun v st ops).1.orig_to_rev →
        k ∈ alKeys st.orig_to_rev ∨ k ∈ snapTickets ops := by
  intro ops
  induction ops with
  | nil =>
    intro st k h
    rw [passARun] at h
    exact Or.inl h
  | cons op rest ih =>
    intro st k h
    rw [passARun] at h
    rcases ih _ k h with h' | h'
    · rcases passADelta_keys_mem v st op k h' with h'' | h''
      · exact Or.inl h''
      · exact Or.inr (h'' ▸ List.mem_cons_self _ _)
    · exact Or.inr (List.mem_cons_of_mem _ h')

theorem passARun_keys_nodup (v : Venue) :
    ∀ (ops : List TradePosition) (st : EngineState),
      (alKeys st.orig_to_rev).Nodup →
      (alKeys (passARun v st ops).1.orig_to_rev).Nodup := by
  intro ops
  induction ops with
  | nil =>
    intro st h
    rw [passARun]
    exact h
  | cons op rest ih =>
    intro st h
    rw [passARun]
    exact ih _ (passADelta_keys_nodup v st op h)

theorem passARun_cmds_open (v : Venue) :
    ∀ (ops : List TradePosition) (st : EngineState) (c : Command),
      c ∈ (passARun v st ops).2 →
      ∃ op ∈ ops, ∃ price, c = openRequest v op price := by
  intro ops
  induction ops with
  | nil =>
    intro st c h
    rw [passARun] at h
    simp at h
  | cons op rest ih =>
    intro st c h
    rw [passARun] at h
    rcases List.mem_append.mp h with h' | h'
    · rcases passADelta_cmds v st op with hd | ⟨price, hd⟩
      · rw [hd] at h'
        simp at h'
      · rw [hd, List.mem_singleton] at h'
        exact ⟨op, List.mem_cons_self _ _, price, h'⟩
    · obtain ⟨op', hop', price, hc⟩ := ih _ c h'
      exact ⟨op', List.mem_cons_of_mem _ hop', price, hc⟩

theorem passARun_no_open_of_mem_set (v : Venue) :
    ∀ (ops : List TradePosition) (st : EngineState) (t : ℕ),
      t ∈ st.reversed_once →
      ∀ c ∈ (passARun v st ops).2, isOpenFor t c = false := by
  intro ops
  induction ops with
  | nil =>
    intro st t _ c hc
    rw [passARun] at hc
    simp at hc
  | cons op rest ih =>
    intro st t ht c hc
    rw [passARun] at hc
    by_cases hop : op.ticket = t
    · subst hop
      rw [passADelta_of_mem_set v st op ht] at hc
      dsimp only at hc
      rw [List.nil_append] at hc
      exact ih st op.ticket ht c hc
    · rcases List.mem_append.mp hc with h' | h'
      · rcases passADelta_cmds v st op with hd | ⟨price, hd⟩
        · rw [hd] at h'
          simp at h'
        · rw [hd, List.mem_singleton] at h'
          subst h'
          simp only [isOpenFor, openRequest]
          simp only [beq_eq_false_iff_ne, ne_eq]
          intro hcm
          exact hop (reverse_comment_inj hcm)
      · exact ih _ t (passADelta_set_sub v st op ht) c h'

theorem passARun_emits_open (v : Venue) :
    ∀ (ops : List TradePosition) (st : EngineState) (t : ℕ),
      (snapTickets ops).Nodup →
      t ∉ st.reversed_once →
      alLookup st.orig_to_rev t = none →
      (∃ op ∈ ops, op.ticket = t ∧ ensure_symbol v op.symbol = true ∧
        (price_from_tick v op.symbol
          (if reverse_type op.ptype = ORDER_TYPE_BUY then POSITION_TYPE_BUY
           else POSITION_TYPE_SELL)).isSome) →
      ∃ c ∈ (passARun v st ops).2, isOpenFor t c = true := by
  intro ops
  induction ops with
  | nil =>
    intro st t _ _ _ hex
    obtain ⟨op, hop, _⟩ := hex
    simp at hop
  | cons op rest ih =>
    intro st t hnd hset hlk hex
    rw [snapTickets, List.map_cons, List.nodup_cons] at hnd
    obtain ⟨w, hw, hwt, hens, htick⟩ := hex
    rw [passARun]
    by_cases hop : op.ticket = t
    · have hwop : w = op := by
        rcases List.mem_cons.mp hw with h' | h'
        · exact h'
        · exfalso
          apply hnd.1
          have hmem : w.ticket ∈ List.map TradePosition.ticket rest :=
            List.mem_map.mpr ⟨w, h', rfl⟩
          rw [hwt, ← hop] at hmem
          exact hmem
      subst hwop
      obtain ⟨price, hprice⟩ := Option.isSome_iff_exists.mp htick
      have hopen := passADelta_open v st w price (hwt ▸ hset)
        (hwt ▸ hlk) hens hprice
      refine ⟨openRequest v w price, ?_, ?_⟩
      · rw [hopen]
        exact List.mem_append.mpr (Or.inl (List.mem_singleton.mpr rfl))
      · simp [isOpenFor, openRequest, hwt]
    · have hw' : w ∈ rest := by
        rcases List.mem_cons.mp hw with h' | h'
        · exact absurd (h' ▸ hwt) hop
        · exact h'
      have hset' : t ∉ (passADelta v st op).1.reversed_once := by
        intro hin
        rcases passADelta_set_mem v st op t hin with h' | h'
        · exact hset h'
        · exact hop h'.symm
      have hlk' : alLookup (passADelta v st op).1.orig_to_rev t = none := by
        rw [passADelta_lookup_ne v st op t (fun h => hop h.symm)]
        exact hlk
      obtain ⟨c, hc, hc2⟩ := ih (passADelta v st op).1 t hnd.2 hset' hlk'
        ⟨w, hw', hwt, hens, htick⟩
      exact ⟨c, List.mem_append.mpr (Or.inr hc), hc2⟩

theorem passARun_atomic (v : Venue) :
    ∀ (ops : List TradePosition) (st : EngineState) (t : ℕ),
      t ∉ st.reversed_once →
      alLookup st.orig_to_rev t = none →
      (∀ op ∈ ops, op.ticket = t →
        ∀ price, v.orderResult (openRequest v op price) = none ∨
          (v.settle op.symbol).find? (settleMatch op.ticket) = none) →
      t ∉ (passARun v st ops).1.reversed_once ∧
        alLookup (passARun v st ops).1.orig_to_rev t = none := by
  intro ops
  induction ops with
  | nil =>
    intro st t hset hlk _
    rw [passARun]
    exact ⟨hset, hlk⟩
  | cons op rest ih =>
    intro st t hset hlk hfail
    rw [passARun]
    by_cases hop : op.ticket = t
    · have hd : (passADelta v st op).1 = st :=
        passADelta_state_of_fail v st op
          (hfail op (List.mem_cons_self _ _) hop)
      rw [hd]
      exact ih st t hset hlk (fun o ho => hfail o (List.mem_cons_of_mem _ ho))
    · have hset' : t ∉ (passADelta v st op).1.reversed_once := by
        intro hin
        rcases passADelta_set_mem v st op t hin with h' | h'
        · exact hset h'
        · exact hop h'.symm
      have hlk' : alLookup (passADelta v st op).1.orig_to_rev t = none := by
        rw [passADelta_lookup_ne v st op t (fun h => hop h.symm)]
        exact hlk
      exact ih _ t hset' hlk'
        (fun o ho => hfail o (List.mem_cons_of_mem _ ho))

end MT5Reverse

namespace MT5Reverse

/-! ## Pass B lemmas -/

theorem passBEntry_close (v : Venue) (byT : List (ℕ × TradePosition))
    (e : ℕ × ℕ) (rv : TradePosition)
    (h1 : alLookup byT e.1 = none) (h2 : alLookup byT e.2 = some rv) :
    passBEntry v byT e = [closeRequest v rv] := by
  rw [passBEntry, h1, h2]

theorem passBEntry_live (v : Venue) (byT : List (ℕ × TradePosition))
    (e : ℕ × ℕ) (op rv : TradePosition)
    (h1 : alLookup byT e.1 = some op) (h2 : alLookup byT e.2 = some rv) :
    passBEntry v byT e =
      if need_modify v op rv then
        [modifyRequest v rv (desired_sltp_for_reverse op).1
          (desired_sltp_for_reverse op).2]
      else [] := by
  rw [passBEntry, h1, h2]

theorem passBEntry_gone (v : Venue) (byT : List (ℕ × TradePosition))
    (e : ℕ × ℕ) (h2 : alLookup byT e.2 = none) :
    passBEntry v byT e = [] := by
  rw [passBEntry, h2]
  cases alLookup byT e.1 <;> rfl

theorem passBEntry_no_open (v : Venue) (byT : List (ℕ × TradePosition))
    (e : ℕ × ℕ) (t : ℕ) :
    ∀ c ∈ passBEntry v byT e, isOpenFor t c = false := by
  intro c hc
  rw [passBEntry] at hc
  cases h1 : alLookup byT e.1 with
  | none =>
    cases h2 : alLookup byT e.2 with
    | none =>
      rw [h1, h2] at hc
      simp at hc
    | some rv =>
      rw [h1, h2] at hc
      dsimp only at hc
      rw [List.mem_singleton] at hc
      subst hc
      rfl
  | some op =>
    cases h2 : alLookup byT e.2 with
    | none =>
      rw [h1, h2] at hc
      simp at hc
    | some rv =>
      rw [h1, h2] at hc
      dsimp only at hc
      by_cases hm : need_modify v op rv
      · rw [if_pos hm, List.mem_singleton] at hc
        subst hc
        rfl
      · rw [if_neg hm] at hc
        simp at hc

theorem passBRun_mem_cmds (v : Venue) (byT : List (ℕ × TradePosition)) :
    ∀ (es tbl : List (ℕ × ℕ)) (c : Command),
      c ∈ (passBRun v byT tbl es).2 ↔ ∃ e ∈ es, c ∈ passBEntry v byT e := by
  intro es
  induction es with
  | nil =>
    intro tbl c
    rw [passBRun]
    simp
  | cons e rest ih =>
    intro tbl c
    rw [passBRun]
    simp only [List.mem_append, ih, List.mem_cons]
    constructor
    · rintro (h | ⟨e', he', hc⟩)
      · exact ⟨e, Or.inl rfl, h⟩
      · exact ⟨e', Or.inr he', hc⟩
    · rintro ⟨e', he' | he', hc⟩
      · exact Or.inl (he' ▸ hc)
      · exact Or.inr ⟨e', he', hc⟩

theorem closesFor_append (t : ℕ) (l₁ l₂ : List Command) :
    closesFor t (l₁ ++ l₂) = closesFor t l₁ + closesFor t l₂ := by
  simp [closesFor, List.filter_append]

theorem passBRun_closesFor (v : Venue) (byT : List (ℕ × TradePosition))
    (t : ℕ) :
    ∀ (es tbl : List (ℕ × ℕ)),
      closesFor t (passBRun v byT tbl es).2 =
        (es.map (fun e => closesFor t (passBEntry v byT e))).sum := by
  intro es
  induction es with
  | nil =>
    intro tbl
    rw [passBRun]
    simp [closesFor]
  | cons e rest ih =>
    intro tbl
    rw [passBRun]
    dsimp only
    rw [closesFor_append, ih, List.map_cons, List.sum_cons]

theorem passBRun_table_foldl (v : Venue) (byT : List (ℕ × TradePosition)) :
    ∀ (es tbl : List (ℕ × ℕ)),
      (passBRun v byT tbl es).1 =
        es.foldl
          (fun acc e => if passBKeep byT e then acc else alErase acc e.1)
          tbl := by
  intro es
  induction es with
  | nil =>
    intro tbl
    rw [passBRun, List.foldl_nil]
  | cons e rest ih =>
    intro tbl
    rw [passBRun, List.foldl_cons]
    dsimp only
    rw [ih]

theorem passBRun_table_nodup (v : Venue) (byT : List (ℕ × TradePosition)) :
    ∀ (es tbl : List (ℕ × ℕ)), (alKeys tbl).Nodup →
      (alKeys (passBRun v byT tbl es).1).Nodup := by
  intro es
  induction es with
  | nil =>
    intro tbl h
    rw [passBRun]
    exact h
  | cons e rest ih =>
    intro tbl h
    rw [passBRun]
    by_cases hk : passBKeep byT e
    · rw [if_pos hk]
      exact ih tbl h
    · rw [if_neg hk]
      exact ih _ (alKeys_nodup_alErase tbl e.1 h)

theorem passBRun_keys_sub (v : Venue) (byT : List (ℕ × TradePosition)) :
    ∀ (es tbl : List (ℕ × ℕ)) (k : ℕ),
      k ∈ alKeys (passBRun v byT tbl es).1 → k ∈ alKeys tbl := by
  intro es
  induction es with
  | nil =>
    intro tbl k h
    rw [passBRun] at h
    exact h
  | cons e rest ih =>
    intro tbl k h
    rw [passBRun] at h
    by_cases hk : passBKeep byT e
    · rw [if_pos hk] at h
      exact ih tbl k h
    · rw [if_neg hk] at h
      exact alKeys_alErase_sub tbl e.1 k (ih _ k h)

theorem foldl_eraseIf_filter (byT : List (ℕ × TradePosition)) :
    ∀ (es tbl : List (ℕ × ℕ)), (alKeys tbl).Nodup →
      es.foldl
        (fun acc e => if passBKeep byT e then acc else alErase acc e.1)
        tbl =
      tbl.filter (fun en =>
        !(((es.filter (fun e => !(passBKeep byT e))).map Prod.fst).contains
          en.1)) := by
  intro es
  induction es with
  | nil =>
    intro tbl _
    simp
  | cons e rest ih =>
    intro tbl hnd
    rw [List.foldl_cons]
    by_cases hk : passBKeep byT e
    · rw [if_pos hk, ih tbl hnd]
      have hfe : (e :: rest).filter (fun e => !(passBKeep byT e)) =
          rest.filter (fun e => !(passBKeep byT e)) := by
        rw [List.filter_cons]
        simp [hk]
      rw [hfe]
    · rw [if_neg hk, ih _ (alKeys_nodup_alErase tbl e.1 hnd),
        alErase_eq_filter tbl e.1 hnd, List.filter_filter]
      have hfe : (e :: rest).filter (fun e => !(passBKeep byT e)) =
          e :: rest.filter (fun e => !(passBKeep byT e)) := by
        rw [List.filter_cons]
        simp [hk]
      rw [hfe]
      refine List.filter_congr ?_
      intro en _
      rw [List.map_cons, List.contains_cons]
      by_cases h1 : en.1 = e.1 <;> simp [h1]

theorem passBRun_self_mem (v : Venue) (byT : List (ℕ × TradePosition))
    (tbl : List (ℕ × ℕ)) (hnd : (alKeys tbl).Nodup) (k r : ℕ)
    (hm : (k, r) ∈ (passBRun v byT tbl tbl).1) :
    (k, r) ∈ tbl ∧ passBKeep byT (k, r) = true := by
  rw [passBRun_table_foldl, foldl_eraseIf_filter byT tbl tbl hnd] at hm
  have hmem := List.mem_of_mem_filter hm
  refine ⟨hmem, ?_⟩
  have hprop := List.of_mem_filter hm
  by_cases hk : passBKeep byT (k, r) = true
  · exact hk
  · exfalso
    have hdead : (k, r) ∈ tbl.filter (fun e => !(passBKeep byT e)) :=
      List.mem_filter.mpr ⟨hmem, by simp [hk]⟩
    have hkmem : k ∈ (tbl.filter (fun e => !(passBKeep byT e))).map
        Prod.fst := List.mem_map.mpr ⟨(k, r), hdead, rfl⟩
    have hcont : ((tbl.filter (fun e => !(passBKeep byT e))).map
        Prod.fst).contains k = true := by simpa using hkmem
    rw [hcont] at hprop
    simp at hprop

theorem passBRun_erased (v : Venue) (byT : List (ℕ × TradePosition))
    (tbl : List (ℕ × ℕ)) (hnd : (alKeys tbl).Nodup) (k r : ℕ)
    (hm : (k, r) ∈ tbl) (hk : passBKeep byT (k, r) = false) :
    alLookup (passBRun v byT tbl tbl).1 k = none := by
  rw [alLookup_eq_none_iff]
  intro hmem
  obtain ⟨r', hr'⟩ := Option.isSome_iff_exists.mp
    ((alLookup_isSome_iff _ _).mpr hmem)
  have hm' := alLookup_mem _ _ _ hr'
  obtain ⟨hin, hkeep⟩ := passBRun_self_mem v byT tbl hnd k r' hm'
  have : r' = r := by
    have l1 := mem_alLookup tbl k r' hnd hin
    have l2 := mem_alLookup tbl k r hnd hm
    rw [l1] at l2
    exact Option.some.inj l2
  rw [this] at hkeep
  rw [hkeep] at hk
  exact absurd hk (by simp)

end MT5Reverse

namespace MT5Reverse

/-! ## Quiescence lemmas for Pass A -/

theorem passADelta_of_linked (v : Venue) (st : EngineState)
    (op : TradePosition) (r : ℕ)
    (h : alLookup st.orig_to_rev op.ticket = some r) :
    passADelta v st op = (st, []) := by
  rw [passADelta]
  have hne : ¬ alLookup st.orig_to_rev op.ticket = none := by
    rw [h]
    simp
  rw [if_neg (fun hc => hne hc.2), if_neg hne]

theorem passADelta_of_ensure_false (v : Venue) (st : EngineState)
    (op : TradePosition) (h : ensure_symbol v op.symbol = false) :
    passADelta v st op = (st, []) := by
  rw [passADelta]
  by_cases hset : op.ticket ∈ st.reversed_once ∧
      alLookup st.orig_to_rev op.ticket = none
  · rw [if_pos hset]
  · rw [if_neg hset]
    by_cases hlk : alLookup st.orig_to_rev op.ticket = none
    · rw [if_pos hlk, if_pos (by simp [h])]
    · rw [if_neg hlk]

theorem passADelta_of_tick_none (v : Venue) (st : EngineState)
    (op : TradePosition)
    (h : price_from_tick v op.symbol
      (if reverse_type op.ptype = ORDER_TYPE_BUY then POSITION_TYPE_BUY
       else POSITION_TYPE_SELL) = none) :
    passADelta v st op = (st, []) := by
  rw [passADelta]
  by_cases hset : op.ticket ∈ st.reversed_once ∧
      alLookup st.orig_to_rev op.ticket = none
  · rw [if_pos hset]
  · rw [if_neg hset]
    by_cases hlk : alLookup st.orig_to_rev op.ticket = none
    · rw [if_pos hlk]
      by_cases hens : ensure_symbol v op.symbol = true
      · rw [if_neg (fun hc => hc hens), h]
      · rw [if_pos (fun hc => hens (by simpa using hc))]
    · rw [if_neg hlk]

theorem passADelta_nocmd_inv (v : Venue) (st : EngineState)
    (op : TradePosition) (h : (passADelta v st op).2 = []) :
    op.ticket ∈ st.reversed_once ∨
      (alLookup st.orig_to_rev op.ticket).isSome = true ∨
      ensure_symbol v op.symbol = false ∨
      price_from_tick v op.symbol
        (if reverse_type op.ptype = ORDER_TYPE_BUY then POSITION_TYPE_BUY
         else POSITION_TYPE_SELL) = none := by
  by_cases h1 : op.ticket ∈ st.reversed_once
  · exact Or.inl h1
  by_cases h2 : (alLookup st.orig_to_rev op.ticket).isSome = true
  · exact Or.inr (Or.inl h2)
  by_cases h3 : ensure_symbol v op.symbol = true
  case neg =>
    exact Or.inr (Or.inr (Or.inl (Bool.not_eq_true _ ▸ h3)))
  cases h4 : price_from_tick v op.symbol
      (if reverse_type op.ptype = ORDER_TYPE_BUY then POSITION_TYPE_BUY
       else POSITION_TYPE_SELL) with
  | none => exact Or.inr (Or.inr (Or.inr rfl))
  | some price =>
    exfalso
    have hlk : alLookup st.orig_to_rev op.ticket = none :=
      Option.not_isSome_iff_eq_none.mp h2
    rw [passADelta_open v st op price h1 hlk h3 h4] at h
    simp at h

theorem passARun_zero_of (v : Venue) :
    ∀ (ops : List TradePosition) (st : EngineState),
      (∀ op ∈ ops, op.ticket ∈ st.reversed_once ∨
        (alLookup st.orig_to_rev op.ticket).isSome = true ∨
        ensure_symbol v op.symbol = false ∨
        price_from_tick v op.symbol
          (if reverse_type op.ptype = ORDER_TYPE_BUY then POSITION_TYPE_BUY
           else POSITION_TYPE_SELL) = none) →
      (passARun v st ops).2 = [] := by
  intro ops
  induction ops with
  | nil =>
    intro st _
    rw [passARun]
  | cons op rest ih =>
    intro st h
    have hd : passADelta v st op = (st, []) := by
      rcases h op (List.mem_cons_self _ _) with h' | h' | h' | h'
      · exact passADelta_of_mem_set v st op h'
      · obtain ⟨r, hr⟩ := Option.isSome_iff_exists.mp h'
        exact passADelta_of_linked v st op r hr
      · exact passADelta_of_ensure_false v st op h'
      · exact passADelta_of_tick_none v st op h'
    rw [passARun, hd]
    dsimp only
    rw [List.nil_append]
    exact ih st (fun o ho => h o (List.mem_cons_of_mem _ ho))

theorem passARun_zero_inv (v : Venue) :
    ∀ (ops : List TradePosition) (st : EngineState),
      (passARun v st ops).2 = [] →
      ∀ op ∈ ops, op.ticket ∈ st.reversed_once ∨
        (alLookup st.orig_to_rev op.ticket).isSome = true ∨
        ensure_symbol v op.symbol = false ∨
        price_from_tick v op.symbol
          (if reverse_type op.ptype = ORDER_TYPE_BUY then POSITION_TYPE_BUY
           else POSITION_TYPE_SELL) = none := by
  intro ops
  induction ops with
  | nil =>
    intro st _ op hop
    simp at hop
  | cons op0 rest ih =>
    intro st h op hop
    rw [passARun] at h
    simp only [List.append_eq_nil] at h
    have hst := passADelta_zero v st op0 h.1
    rcases List.mem_cons.mp hop with h' | h'
    · subst h'
      exact passADelta_nocmd_inv v st op h.1
    · have h2 := h.2
      rw [hst] at h2
      exact ih st h2 op h'

end MT5Reverse

namespace MT5Reverse

/-! ## Cycle-level lemmas -/

theorem cycle_set_eq (v : Venue) (st : EngineState)
    (snap : List TradePosition) :
    (cycle v st snap).1.reversed_once =
      (afterPassA v st snap).1.reversed_once := rfl

theorem cycle_table_eq (v : Venue) (st : EngineState)
    (snap : List TradePosition) :
    (cycle v st snap).1.orig_to_rev =
      (passBRun v (posByTicket v.posAgain) (tableAtPassB v st snap)
        (tableAtPassB v st snap)).1 := rfl

theorem cycle_set_sub (v : Venue) (st : EngineState)
    (snap : List TradePosition) :
    st.reversed_once ⊆ (cycle v st snap).1.reversed_once := by
  rw [cycle_set_eq]
  exact (rebuildState_set_sub (cycleReverses snap) st).trans
    (passARun_set_sub v (cycleOriginals snap) (stateAfterRebuild st snap))

theorem cycle_no_open_of_mem (v : Venue) (st : EngineState)
    (snap : List TradePosition) (t : ℕ) (ht : t ∈ st.reversed_once) :
    ∀ c ∈ (cycle v st snap).2, isOpenFor t c = false := by
  intro c hc
  rw [cycle_eq] at hc
  rcases List.mem_append.mp hc with h | h
  · refine passARun_no_open_of_mem_set v (cycleOriginals snap)
      (stateAfterRebuild st snap) t ?_ c h
    exact rebuildState_set_sub (cycleReverses snap) st ht
  · obtain ⟨e, _, hce⟩ := (passBRun_mem_cmds v _ _ _ c).mp h
    exact passBEntry_no_open v _ e t c hce

theorem stateAfterRebuild_inv (st : EngineState)
    (snap : List TradePosition)
    (hinv : ∀ k ∈ alKeys st.orig_to_rev, k ∈ st.reversed_once) :
    ∀ k ∈ alKeys (stateAfterRebuild st snap).orig_to_rev,
      k ∈ (stateAfterRebuild st snap).reversed_once := by
  intro k hk
  rw [stateAfterRebuild] at hk ⊢
  rcases (rebuildState_keys_mem (cycleReverses snap) st k).mp hk with h | h
  · exact rebuildState_set_sub (cycleReverses snap) st (hinv k h)
  · exact (rebuildState_set_mem (cycleReverses snap) st k).mpr (Or.inr h)

theorem levelMismatch_false (v : Venue) (sym : String) (d c : Option ℚ)
    (h : levelMismatch v sym d c = false) :
    d.map (normalize_price v sym) = c.map (normalize_price v sym) := by
  cases d with
  | none =>
    cases c with
    | none => rfl
    | some cv => simp [levelMismatch] at h
  | some dv =>
    cases c with
    | none => simp [levelMismatch] at h
    | some cv =>
      rw [levelMismatch] at h
      by_cases he : normalize_price v sym dv = normalize_price v sym cv
      · simp [he]
      · rw [if_neg he] at h
        simp at h

end MT5Reverse

namespace MT5Reverse

/-! ## Claims -/

/-- C8 counterexample: the comment consisting of the marker, the digits
"123" and a trailing newline does not consist of the marker followed by
decimal digits — a newline is no digit — yet the program's regex accepts it
(`$` matches just before a single trailing newline) and parsing yields 123
rather than no result, refuting the claim's everything-else-yields-nothing
half. -/
theorem C8_counterexample :
    parse_original_ticket_from_comment
        (COMMENT_PREFIX ++ [Char.ofNat 49, Char.ofNat 50, Char.ofNat 51,
          Char.ofNat 10]) = some 123 ∧
      Char.isDigit (Char.ofNat 10) = false ∧
      isPyDigit (Char.ofNat 10) = false := by
  refine ⟨by decide, by decide, by decide⟩

/-- C8 (amended): formatting a ticket and parsing the result back yields
the ticket, and the parse results are characterized exactly — a comment
parses (to the digits' decimal value) precisely when it is the marker
followed by one or more Unicode decimal digits (Python's `\d`), optionally
followed by one trailing newline (accepted by the regex's `$`); everything
outside that language yields no result. -/
theorem C8_comment_roundtrip :
    (∀ n : ℕ,
      parse_original_ticket_from_comment (reverse_comment n) = some n) ∧
    (∀ (cs : List Char) (n : ℕ),
      parse_original_ticket_from_comment cs = some n →
      ∃ ds, (cs = COMMENT_PREFIX ++ ds ∨
          cs = COMMENT_PREFIX ++ ds ++ [Char.ofNat 10]) ∧ ds ≠ [] ∧
        (∀ c ∈ ds, isPyDigit c) ∧ pyDigitsVal ds = n) ∧
    (∀ ds : List Char, ds ≠ [] → (∀ c ∈ ds, isPyDigit c) →
      parse_original_ticket_from_comment (COMMENT_PREFIX ++ ds) =
          some (pyDigitsVal ds) ∧
        parse_original_ticket_from_comment
            (COMMENT_PREFIX ++ ds ++ [Char.ofNat 10]) =
          some (pyDigitsVal ds)) :=
  ⟨parse_reverse_comment, parse_some_inv, fun ds hne hdig =>
    ⟨parse_concat_digits ds hne hdig,
     parse_concat_digits_newline ds hne hdig⟩⟩

theorem C8_comment_roundtrip_witness :
    parse_original_ticket_from_comment (reverse_comment 123) = some 123 ∧
      (∃ ds, (reverse_comment 5 = COMMENT_PREFIX ++ ds ∨
          reverse_comment 5 = COMMENT_PREFIX ++ ds ++ [Char.ofNat 10]) ∧
        ds ≠ [] ∧ (∀ c ∈ ds, isPyDigit c) ∧ pyDigitsVal ds = 5) ∧
      parse_original_ticket_from_comment
          (COMMENT_PREFIX ++ [Char.ofNat 55] ++ [Char.ofNat 10]) =
        some (pyDigitsVal [Char.ofNat 55]) :=
  ⟨C8_comment_roundtrip.1 123,
   C8_comment_roundtrip.2.1 (reverse_comment 5) 5 (C8_comment_roundtrip.1 5),
   (C8_comment_roundtrip.2.2 [Char.ofNat 55] (by decide) (by decide)).2⟩

/-- C2: the desired reverse levels are the original's levels swapped —
desired reverse stop-loss is the original's take-profit and desired reverse
take-profit is the original's stop-loss, each unset exactly when the
corresponding original field is unset (zero) — and, for a live tracked
pair, the maintenance pass issues exactly the modify request carrying those
desired values when something differs, and nothing otherwise, in which
case the reverse's current levels already agree with the desired ones after
normalization. -/
theorem C2_swap_rule_drives_reverse (orig : TradePosition)
    (hsl : 0 ≤ orig.sl) (htp : 0 ≤ orig.tp) :
    ((desired_sltp_for_reverse orig).1 =
      if orig.tp = 0 then none else some orig.tp) ∧
    ((desired_sltp_for_reverse orig).2 =
      if orig.sl = 0 then none else some orig.sl) ∧
    (∀ (v : Venue) (byT : List (ℕ × TradePosition)) (e : ℕ × ℕ)
      (rv : TradePosition),
      alLookup byT e.1 = some orig → alLookup byT e.2 = some rv →
      passBEntry v byT e =
        (if need_modify v orig rv then
          [modifyRequest v rv (desired_sltp_for_reverse orig).1
            (desired_sltp_for_reverse orig).2]
         else []) ∧
      (need_modify v orig rv = false →
        (desired_sltp_for_reverse orig).1.map (normalize_price v rv.symbol) =
            (current_sl rv).map (normalize_price v rv.symbol) ∧
          (desired_sltp_for_reverse orig).2.map
              (normalize_price v rv.symbol) =
            (current_tp rv).map (normalize_price v rv.symbol))) := by
  refine ⟨?_, ?_, ?_⟩
  · rw [desired_sltp_for_reverse]
    by_cases h : orig.tp = 0
    · simp [h]
    · have hpos : orig.tp > 0 := lt_of_le_of_ne htp (Ne.symm h)
      simp [h, hpos]
  · rw [desired_sltp_for_reverse]
    by_cases h : orig.sl = 0
    · simp [h]
    · have hpos : orig.sl > 0 := lt_of_le_of_ne hsl (Ne.symm h)
      simp [h, hpos]
  · intro v byT e rv h1 h2
    refine ⟨passBEntry_live v byT e orig rv h1 h2, ?_⟩
    intro hnm
    rw [need_modify] at hnm
    simp only [Bool.or_eq_false_iff] at hnm
    exact ⟨levelMismatch_false v rv.symbol _ _ hnm.1,
      levelMismatch_false v rv.symbol _ _ hnm.2⟩

theorem C2_swap_rule_drives_reverse_witness :
    (desired_sltp_for_reverse w2orig).1 =
        (if w2orig.tp = 0 then none else some w2orig.tp) ∧
      (desired_sltp_for_reverse w2orig).2 =
        (if w2orig.sl = 0 then none else some w2orig.sl) := by
  have h := C2_swap_rule_drives_reverse w2orig (by norm_num [w2orig])
    (by norm_num [w2orig])
  exact ⟨h.1, h.2.1⟩

/-- C5: price comparison happens only after rounding both operands to the
instrument's reported decimal precision: for a live tracked pair whose
desired and current levels are all set and agree after rounding, the
maintenance pass issues no command, even when the raw values differ. -/
theorem C5_rounding_stability (v : Venue) (byT : List (ℕ × TradePosition))
    (e : ℕ × ℕ) (op rv : TradePosition) (meta : SymbolMeta)
    (dsl dtp csl ctp : ℚ)
    (h1 : alLookup byT e.1 = some op) (h2 : alLookup byT e.2 = some rv)
    (hinfo : v.symbolInfo rv.symbol = some meta)
    (hdsl : (desired_sltp_for_reverse op).1 = some dsl)
    (hcsl : current_sl rv = some csl)
    (hdtp : (desired_sltp_for_reverse op).2 = some dtp)
    (hctp : current_tp rv = some ctp)
    (hsl : roundToDigits meta.digits dsl = roundToDigits meta.digits csl)
    (htp : roundToDigits meta.digits dtp = roundToDigits meta.digits ctp) :
    passBEntry v byT e = [] := by
  rw [passBEntry_live v byT e op rv h1 h2]
  have hn : ∀ q, normalize_price v rv.symbol q =
      roundToDigits meta.digits q := by
    intro q
    simp only [normalize_price]
    rw [hinfo]
  have hmm : need_modify v op rv = false := by
    rw [need_modify, hdsl, hcsl, hdtp, hctp]
    simp only [levelMismatch, hn]
    simp [hsl, htp]
  simp [hmm]

theorem C5_rounding_stability_witness :
    (12342 / 100000 : ℚ) ≠ 12341 / 100000 ∧
      passBEntry w5venue w5byT (31, 32) = [] := by
  constructor
  · norm_num
  · exact C5_rounding_stability w5venue w5byT (31, 32) w5op w5rv ⟨4, true⟩
      (12342 / 100000) (1 / 2) (12341 / 100000) (1 / 2) rfl rfl rfl
      (by norm_num [desired_sltp_for_reverse, w5op])
      (by norm_num [current_sl, w5rv])
      (by norm_num [desired_sltp_for_reverse, w5op])
      (by norm_num [current_tp, w5rv])
      (by norm_num [roundToDigits, roundHalfEven])
      rfl

end MT5Reverse

namespace MT5Reverse

/-- C10: a position whose magic equals the bot's but whose comment does not
start with the reserved marker is classified among the originals — not
among the managed reverses — and Pass A treats it like any foreign
position: when it is eligible (unlinked, not reversed-once, symbol and tick
available), an open command for it is issued. -/
theorem C10_tagged_unmarked_is_original (p : TradePosition)
    (snap : List TradePosition) (hmagic : p.magic = MAGIC)
    (hpre : ¬ COMMENT_PREFIX <+: p.comment) (hmem : p ∈ snap) :
    p ∈ cycleOriginals snap ∧ p ∉ cycleReverses snap ∧
    (∀ (v : Venue) (st : EngineState),
      (snapTickets (cycleOriginals snap)).Nodup →
      p.ticket ∉ (stateAfterRebuild st snap).reversed_once →
      alLookup (stateAfterRebuild st snap).orig_to_rev p.ticket = none →
      ensure_symbol v p.symbol = true →
      (price_from_tick v p.symbol
        (if reverse_type p.ptype = ORDER_TYPE_BUY then POSITION_TYPE_BUY
         else POSITION_TYPE_SELL)).isSome = true →
      ∃ c ∈ (cycle v st snap).2, isOpenFor p.ticket c = true) := by
  have hrev : is_our_reverse p = false := by
    rw [is_our_reverse]
    by_cases hm : p.magic ≠ MAGIC
    · rw [if_pos hm]
    · rw [if_neg hm, if_neg (fun hc => hpre hc.2)]
  refine ⟨?_, ?_, ?_⟩
  · rw [cycleOriginals]
    exact List.mem_filter.mpr ⟨hmem, by simp [hrev]⟩
  · rw [cycleReverses]
    intro hin
    have := List.of_mem_filter hin
    rw [hrev] at this
    exact absurd this (by simp)
  · intro v st hnd hset hlk hens htick
    have hporig : p ∈ cycleOriginals snap :=
      List.mem_filter.mpr ⟨hmem, by simp [hrev]⟩
    obtain ⟨c, hc, hct⟩ := passARun_emits_open v (cycleOriginals snap)
      (stateAfterRebuild st snap) p.ticket hnd hset hlk
      ⟨p, hporig, rfl, hens, htick⟩
    refine ⟨c, ?_, hct⟩
    rw [cycle_eq]
    exact List.mem_append.mpr (Or.inl hc)

theorem C10_tagged_unmarked_is_original_witness :
    w10pos ∈ cycleOriginals [w10pos] ∧ w10pos ∉ cycleReverses [w10pos] ∧
      ∃ c ∈ (cycle w10venue initialState [w10pos]).2,
        isOpenFor w10pos.ticket c = true := by
  have h := C10_tagged_unmarked_is_original w10pos [w10pos] rfl
    (by decide) (List.mem_singleton.mpr rfl)
  exact ⟨h.1, h.2.1,
    h.2.2 w10venue initialState (by decide) (by decide) rfl rfl rfl⟩

end MT5Reverse

namespace MT5Reverse

/-- C7 counterexample: with two live reverses (tickets 11 and 12) whose
comments both parse to original 5 and no live original 5, the rebuild does
create a linkage entry from the ambiguous reverses (5 is mapped to 12), and
the cycle does issue a command upon one of them (a close of reverse 12) —
contradicting "no linkage-table entry is created or updated from them and
no command is issued upon them that cycle". -/
theorem C7_counterexample :
    alLookup (stateAfterRebuild initialState [c7revA, c7revB]).orig_to_rev
        5 = some 12 ∧
      (cycle c7venue initialState [c7revA, c7revB]).2 =
        [closeRequest c7venue c7revB] := by
  exact ⟨rfl, rfl⟩

/-- C7 (amended): reverses whose comments parse to the same original
identifier are not excluded from management; the linkage table maps that
identifier to the ticket of the last-enumerated claiming reverse (later
claimants overwrite earlier ones) and the identifier is added to the
Reversed-Once Set.  Only a comment that fails to parse excludes a reverse. -/
theorem C7_last_claimant_wins (st : EngineState)
    (rs : List TradePosition) (k : ℕ) (rp : TradePosition)
    (hlast : rs.reverse.find? (claimsTicket k) = some rp) :
    alLookup (rebuildState st rs).orig_to_rev k = some rp.ticket ∧
      k ∈ (rebuildState st rs).reversed_once := by
  constructor
  · rw [rebuildState_lookup, hlast]
  · refine (rebuildState_set_mem rs st k).mpr (Or.inr ⟨rp, ?_, ?_⟩)
    · exact List.mem_reverse.mp (List.mem_of_find?_eq_some hlast)
    · have h0 := List.find?_some hlast
      rw [claimsTicket] at h0
      exact beq_iff_eq.mp h0

theorem C7_last_claimant_wins_witness :
    alLookup (rebuildState initialState [c7revA, c7revB]).orig_to_rev 5 =
        some c7revB.ticket ∧
      5 ∈ (rebuildState initialState [c7revA, c7revB]).reversed_once :=
  C7_last_claimant_wins initialState [c7revA, c7revB] 5 c7revB rfl

end MT5Reverse

namespace MT5Reverse

theorem passBEntry_not_openCmd (v : Venue)
    (byT : List (ℕ × TradePosition)) (e : ℕ × ℕ) :
    ∀ c ∈ passBEntry v byT e, isOpenCmd c = false := by
  intro c hc
  rw [passBEntry] at hc
  cases h1 : alLookup byT e.1 with
  | none =>
    cases h2 : alLookup byT e.2 with
    | none =>
      rw [h1, h2] at hc
      simp at hc
    | some rv =>
      rw [h1, h2] at hc
      dsimp only at hc
      rw [List.mem_singleton] at hc
      subst hc
      rfl
  | some op =>
    cases h2 : alLookup byT e.2 with
    | none =>
      rw [h1, h2] at hc
      simp at hc
    | some rv =>
      rw [h1, h2] at hc
      dsimp only at hc
      by_cases hm : need_modify v op rv
      · rw [if_pos hm, List.mem_singleton] at hc
        subst hc
        rfl
      · rw [if_neg hm] at hc
        simp at hc

/-- C6 counterexample: for an instrument whose accepted volume precision is
three decimals (the spec's per-instrument precision) and an original of
volume 0.001, the cycle's open request carries volume
`round(2·0.001, 2) = 0` — the source rounds to a fixed two decimals
(line 229) — whereas rounding to the instrument's accepted volume precision
gives 0.002; the two disagree, refuting the claim as stated. -/
theorem C6_counterexample :
    (cycle c6venue initialState [c6orig]).2 =
      [Command.openOrder "X" ORDER_TYPE_SELL
        (roundToDigits 2 ((1 / 1000 : ℚ) * 2)) 3 none none
        (reverse_comment 7) MAGIC] ∧
      roundToDigits 2 ((1 / 1000 : ℚ) * 2) = 0 ∧
      spec_reverse_volume 3 (1 / 1000) = 1 / 500 ∧
      (0 : ℚ) ≠ 1 / 500 := by
  refine ⟨rfl, ?_, ?_, by norm_num⟩
  · norm_num [roundToDigits, roundHalfEven]
  · norm_num [spec_reverse_volume, roundToDigits, roundHalfEven]

/-- C6 (amended): every open command a cycle submits is, for some original
of the snapshot, the request whose volume is 2 × the original's volume
rounded half-to-even to a fixed two decimal places (not a per-instrument
precision), whose order type is the opposite of the original's side (sell
for a long original, buy for a short one), with swapped normalized levels
and the linking comment. -/
theorem C6_open_command_shape (v : Venue) (st : EngineState)
    (snap : List TradePosition) (c : Command)
    (hc : c ∈ (cycle v st snap).2) (hopen : isOpenCmd c = true) :
    ∃ op ∈ cycleOriginals snap, ∃ price,
      c = Command.openOrder op.symbol (reverse_type op.ptype)
        (roundToDigits 2 (op.volume * 2)) price
        ((desired_sltp_for_reverse op).1.map (normalize_price v op.symbol))
        ((desired_sltp_for_reverse op).2.map (normalize_price v op.symbol))
        (reverse_comment op.ticket) MAGIC ∧
      (op.ptype = POSITION_TYPE_BUY →
        reverse_type op.ptype = ORDER_TYPE_SELL) ∧
      (op.ptype = POSITION_TYPE_SELL →
        reverse_type op.ptype = ORDER_TYPE_BUY) := by
  rw [cycle_eq] at hc
  rcases List.mem_append.mp hc with h | h
  · obtain ⟨op, hop, price, hcc⟩ := passARun_cmds_open v _ _ c h
    refine ⟨op, hop, price, ?_, ?_, ?_⟩
    · rw [hcc, openRequest]
    · intro h'
      rw [reverse_type, if_pos h']
    · intro h'
      rw [reverse_type, h']
      rfl
  · exfalso
    obtain ⟨e, _, hce⟩ := (passBRun_mem_cmds v _ _ _ c).mp h
    have := passBEntry_not_openCmd v _ e c hce
    rw [hopen] at this
    exact absurd this (by simp)

theorem C6_open_command_shape_witness :
    ∃ op ∈ cycleOriginals [c6orig], ∃ price,
      Command.openOrder "X" ORDER_TYPE_SELL
          (roundToDigits 2 ((1 / 1000 : ℚ) * 2)) 3 none none
          (reverse_comment 7) MAGIC =
        Command.openOrder op.symbol (reverse_type op.ptype)
          (roundToDigits 2 (op.volume * 2)) price
          ((desired_sltp_for_reverse op).1.map
            (normalize_price c6venue op.symbol))
          ((desired_sltp_for_reverse op).2.map
            (normalize_price c6venue op.symbol))
          (reverse_comment op.ticket) MAGIC ∧
        (op.ptype = POSITION_TYPE_BUY →
          reverse_type op.ptype = ORDER_TYPE_SELL) ∧
        (op.ptype = POSITION_TYPE_SELL →
          reverse_type op.ptype = ORDER_TYPE_BUY) :=
  C6_open_command_shape c6venue initialState [c6orig] _
    (by rw [(rfl : (cycle c6venue initialState [c6orig]).2 =
      [Command.openOrder "X" ORDER_TYPE_SELL
        (roundToDigits 2 ((1 / 1000 : ℚ) * 2)) 3 none none
        (reverse_comment 7) MAGIC])]; exact List.mem_singleton.mpr rfl)
    rfl

end MT5Reverse

namespace MT5Reverse

/-- C1: across any sequence of cycles, the Reversed-Once Set only grows
(no operation ever removes an identifier), and once an identifier is in it
— which is what a successful open records — no open command for that
identifier is ever issued again, even if its reverse later closes
independently. -/
theorem C1_reversed_once_no_reopen (st : EngineState)
    (runs : List (Venue × List TradePosition)) (t : ℕ)
    (ht : t ∈ st.reversed_once) :
    st.reversed_once ⊆ (runCycles st runs).1.reversed_once ∧
      ∀ c ∈ (runCycles st runs).2, isOpenFor t c = false := by
  induction runs generalizing st with
  | nil =>
    rw [runCycles]
    exact ⟨fun k hk => hk, by intro c hc; simp at hc⟩
  | cons vs rest ih =>
    obtain ⟨v, snap⟩ := vs
    rw [runCycles]
    obtain ⟨ih1, ih2⟩ := ih (cycle v st snap).1 (cycle_set_sub v st snap ht)
    constructor
    · exact (cycle_set_sub v st snap).trans ih1
    · intro c hc
      rcases List.mem_append.mp hc with h | h
      · exact cycle_no_open_of_mem v st snap t ht c h
      · exact ih2 c h

theorem C1_reversed_once_no_reopen_witness :
    (⟨[], {5}⟩ : EngineState).reversed_once ⊆
        (runCycles ⟨[], {5}⟩ [(c4venue, [c4rev])]).1.reversed_once ∧
      ∀ c ∈ (runCycles ⟨[], {5}⟩ [(c4venue, [c4rev])]).2,
        isOpenFor 5 c = false :=
  C1_reversed_once_no_reopen ⟨[], {5}⟩ [(c4venue, [c4rev])] 5 (by decide)

/-- C9: open-failure atomicity — if, in a cycle, every open attempt for
identifier `t` either fails at submission or cannot locate the new reverse
in the settling query, and no live reverse's comment re-links `t`, then `t`
is in neither the linkage table nor the Reversed-Once Set at the end of the
cycle; consequently, in a next cycle in which `t` is a live unlinked
original with symbol and tick available, the same open is attempted
again. -/
theorem C9_open_failure_atomic (v : Venue) (st : EngineState)
    (snap : List TradePosition) (t : ℕ)
    (hset : t ∉ st.reversed_once)
    (hlk : alLookup st.orig_to_rev t = none)
    (hnorev : ∀ rp ∈ cycleReverses snap,
      parse_original_ticket_from_comment rp.comment ≠ some t)
    (hfail : ∀ op ∈ cycleOriginals snap, op.ticket = t →
      ∀ price, v.orderResult (openRequest v op price) = none ∨
        (v.settle op.symbol).find? (settleMatch op.ticket) = none) :
    (t ∉ (cycle v st snap).1.reversed_once ∧
      alLookup (cycle v st snap).1.orig_to_rev t = none) ∧
    (∀ (v' : Venue) (snap' : List TradePosition) (op : TradePosition),
      (snapTickets (cycleOriginals snap')).Nodup →
      op ∈ cycleOriginals snap' → op.ticket = t →
      (∀ rp ∈ cycleReverses snap',
        parse_original_ticket_from_comment rp.comment ≠ some t) →
      ensure_symbol v' op.symbol = true →
      (price_from_tick v' op.symbol
        (if reverse_type op.ptype = ORDER_TYPE_BUY then POSITION_TYPE_BUY
         else POSITION_TYPE_SELL)).isSome = true →
      ∃ c ∈ (cycle v' (cycle v st snap).1 snap').2,
        isOpenFor t c = true) := by
  have hset1 : t ∉ (stateAfterRebuild st snap).reversed_once := by
    intro hin
    rcases (rebuildState_set_mem (cycleReverses snap) st t).mp hin with
      h | ⟨rp, hrp, hp⟩
    · exact hset h
    · exact hnorev rp hrp hp
  have hlk1 : alLookup (stateAfterRebuild st snap).orig_to_rev t = none := by
    rw [stateAfterRebuild, rebuildState_lookup]
    cases hf : (cycleReverses snap).reverse.find? (claimsTicket t) with
    | none => exact hlk
    | some rp =>
      exfalso
      have h0 := List.find?_some hf
      rw [claimsTicket] at h0
      exact hnorev rp
        (List.mem_reverse.mp (List.mem_of_find?_eq_some hf))
        (beq_iff_eq.mp h0)
  obtain ⟨hsetA, hlkA⟩ := passARun_atomic v (cycleOriginals snap)
    (stateAfterRebuild st snap) t hset1 hlk1 hfail
  have hlkA' : alLookup (afterPassA v st snap).1.orig_to_rev t = none := hlkA
  have hsetC : t ∉ (cycle v st snap).1.reversed_once := by
    rw [cycle_set_eq]
    exact hsetA
  have hlkC : alLookup (cycle v st snap).1.orig_to_rev t = none := by
    rw [cycle_table_eq, alLookup_eq_none_iff]
    intro hmem
    have h1 := passBRun_keys_sub v (posByTicket v.posAgain)
      (tableAtPassB v st snap) (tableAtPassB v st snap) t hmem
    rw [tableAtPassB] at h1
    have h2 := (alLookup_isSome_iff _ _).mpr h1
    rw [hlkA'] at h2
    exact absurd h2 (by simp)
  refine ⟨⟨hsetC, hlkC⟩, ?_⟩
  intro v' snap' op hnd hop hopt hnorev' hens htick
  have hset1' :
      t ∉ (stateAfterRebuild (cycle v st snap).1 snap').reversed_once := by
    intro hin
    rcases (rebuildState_set_mem (cycleReverses snap')
        (cycle v st snap).1 t).mp hin with h | ⟨rp, hrp, hp⟩
    · exact hsetC h
    · exact hnorev' rp hrp hp
  have hlk1' :
      alLookup (stateAfterRebuild (cycle v st snap).1 snap').orig_to_rev
        t = none := by
    rw [stateAfterRebuild, rebuildState_lookup]
    cases hf : (cycleReverses snap').reverse.find? (claimsTicket t) with
    | none => exact hlkC
    | some rp =>
      exfalso
      have h0 := List.find?_some hf
      rw [claimsTicket] at h0
      exact hnorev' rp
        (List.mem_reverse.mp (List.mem_of_find?_eq_some hf))
        (beq_iff_eq.mp h0)
  obtain ⟨c, hc, hct⟩ := passARun_emits_open v' (cycleOriginals snap')
    (stateAfterRebuild (cycle v st snap).1 snap') t hnd hset1' hlk1'
    ⟨op, hop, hopt, hens, htick⟩
  refine ⟨c, ?_, hct⟩
  rw [cycle_eq]
  exact List.mem_append.mpr (Or.inl hc)

theorem C9_open_failure_atomic_witness :
    (7 ∉ (cycle c9venue initialState [c9orig]).1.reversed_once ∧
        alLookup (cycle c9venue initialState [c9orig]).1.orig_to_rev 7 =
          none) ∧
      ∃ c ∈ (cycle c9venue (cycle c9venue initialState [c9orig]).1
          [c9orig]).2, isOpenFor 7 c = true := by
  have h := C9_open_failure_atomic c9venue initialState [c9orig] 7
    (by decide) rfl (by decide)
    (fun op _ _ price => Or.inl rfl)
  exact ⟨h.1, h.2 c9venue [c9orig] c9orig (by decide)
    (by decide) rfl (by decide) rfl rfl⟩

end MT5Reverse

namespace MT5Reverse

theorem sum_indicator_eq_filter_length {β : Type} (p : β → Bool) :
    ∀ (es : List β),
      ((es.map (fun e => if p e = true then 1 else 0)).sum : ℕ) =
        (es.filter p).length := by
  intro es
  induction es with
  | nil => simp
  | cons e rest ih =>
    rw [List.map_cons, List.sum_cons, List.filter_cons]
    by_cases h : p e = true
    · rw [if_pos h, if_pos h, List.length_cons, ih]
      omega
    · simp only [h, Bool.false_eq_true, if_false, zero_add]
      exact ih

theorem passBEntry_closesFor (v : Venue) (byT : List (ℕ × TradePosition))
    (e : ℕ × ℕ) (R : ℕ)
    (hval : ∀ (q : ℕ) (p : TradePosition),
      alLookup byT q = some p → p.ticket = q) :
    closesFor R (passBEntry v byT e) =
      if (e.2 == R && (alLookup byT e.1).isNone &&
          (alLookup byT e.2).isSome) = true then 1 else 0 := by
  rw [passBEntry]
  cases h1 : alLookup byT e.1 with
  | none =>
    cases h2 : alLookup byT e.2 with
    | none => simp [closesFor]
    | some rv =>
      dsimp only
      have hrt : rv.ticket = e.2 := hval e.2 rv h2
      rw [closeRequest]
      simp [closesFor, hrt]
      by_cases h : e.2 = R <;> simp [h]
  | some op =>
    cases h2 : alLookup byT e.2 with
    | none => simp [closesFor]
    | some rv =>
      dsimp only
      by_cases hm : need_modify v op rv
      · rw [if_pos hm]
        simp [closesFor, modifyRequest]
      · rw [if_neg hm]
        simp [closesFor]

/-- C3: cascade close — when a tracked pair's original is absent from the
live snapshot while its reverse is still live, the cycle issues exactly one
close command for that reverse and removes the pair from the linkage table
in that same cycle.  The removal is unconditional: the close branch pops
the pair without consulting the venue's response, so it happens whether or
not the close succeeded (the venue's close result is not even an input of
the cycle function). -/
theorem C3_cascade_close (v : Venue) (st : EngineState)
    (snap : List TradePosition) (O R : ℕ) (rv : TradePosition)
    (hagain : v.posAgain = snap)
    (hsnap : (snapTickets snap).Nodup)
    (htbl : (alKeys st.orig_to_rev).Nodup)
    (hrev : alLookup (posByTicket snap) R = some rv)
    (hgone : alLookup (posByTicket snap) O = none)
    (huniq : (tableAtPassB v st snap).filter
        (fun e => e.2 == R && (alLookup (posByTicket snap) e.1).isNone) =
      [(O, R)]) :
    closesFor R (cycle v st snap).2 = 1 ∧
      alLookup (cycle v st snap).1.orig_to_rev O = none := by
  subst hagain
  have htblB : (alKeys (tableAtPassB v st v.posAgain)).Nodup :=
    passARun_keys_nodup v (cycleOriginals v.posAgain)
      (stateAfterRebuild st v.posAgain)
      (rebuildState_keys_nodup (cycleReverses v.posAgain) st htbl)
  have hval : ∀ (q : ℕ) (p : TradePosition),
      alLookup (posByTicket v.posAgain) q = some p → p.ticket = q :=
    fun q p h => (posByTicket_lookup_some v.posAgain q p h).1
  constructor
  · have hsplit : closesFor R (cycle v st v.posAgain).2 =
        closesFor R (afterPassA v st v.posAgain).2 +
          closesFor R (passBRun v (posByTicket v.posAgain)
            (tableAtPassB v st v.posAgain)
            (tableAtPassB v st v.posAgain)).2 := by
      rw [cycle_eq]
      exact closesFor_append R _ _
    rw [hsplit]
    have hA0 : closesFor R (afterPassA v st v.posAgain).2 = 0 := by
      rw [closesFor, List.length_eq_zero, List.filter_eq_nil]
      intro c hc
      obtain ⟨op, _, price, hcc⟩ := passARun_cmds_open v _ _ c hc
      subst hcc
      simp [openRequest]
    have hB1 : closesFor R (passBRun v (posByTicket v.posAgain)
        (tableAtPassB v st v.posAgain)
        (tableAtPassB v st v.posAgain)).2 = 1 := by
      rw [passBRun_closesFor]
      have hcount : ∀ e, closesFor R
          (passBEntry v (posByTicket v.posAgain) e) =
          if (e.2 == R && (alLookup (posByTicket v.posAgain) e.1).isNone &&
              (alLookup (posByTicket v.posAgain) e.2).isSome) = true
          then 1 else 0 :=
        fun e => passBEntry_closesFor v (posByTicket v.posAgain) e R hval
      simp only [hcount]
      rw [sum_indicator_eq_filter_length]
      have hpred : (tableAtPassB v st v.posAgain).filter
          (fun e => e.2 == R &&
            (alLookup (posByTicket v.posAgain) e.1).isNone &&
            (alLookup (posByTicket v.posAgain) e.2).isSome) =
          (tableAtPassB v st v.posAgain).filter
          (fun e => e.2 == R &&
            (alLookup (posByTicket v.posAgain) e.1).isNone) := by
        refine List.filter_congr ?_
        intro e _
        by_cases hR : (e.2 == R) = true
        · have he2 : e.2 = R := beq_iff_eq.mp hR
          rw [he2, hrev]
          simp
        · simp only [Bool.not_eq_true] at hR
          rw [hR]
          simp
      rw [hpred, huniq]
      rfl
    rw [hA0, hB1]
  · have hOR : (O, R) ∈ tableAtPassB v st v.posAgain := by
      have : (O, R) ∈ (tableAtPassB v st v.posAgain).filter
          (fun e => e.2 == R &&
            (alLookup (posByTicket v.posAgain) e.1).isNone) := by
        rw [huniq]
        exact List.mem_singleton.mpr rfl
      exact List.mem_of_mem_filter this
    have hkeep : passBKeep (posByTicket v.posAgain) (O, R) = false := by
      rw [passBKeep]
      have : alLookup (posByTicket v.posAgain) (O, R).1 = none := hgone
      rw [this]
      rfl
    rw [cycle_table_eq]
    exact passBRun_erased v (posByTicket v.posAgain)
      (tableAtPassB v st v.posAgain) htblB O R hOR hkeep

theorem C3_cascade_close_witness :
    closesFor 12 (cycle c4venue initialState [c4rev]).2 = 1 ∧
      alLookup (cycle c4venue initialState [c4rev]).1.orig_to_rev 5 =
        none :=
  C3_cascade_close c4venue initialState [c4rev] 5 12 c4rev rfl
    (by decide) (by decide) rfl rfl rfl

end MT5Reverse

namespace MT5Reverse

theorem stateAfterRebuild_eq (st : EngineState)
    (snap : List TradePosition) :
    stateAfterRebuild st snap = rebuildState st (cycleReverses snap) := rfl

/-- C4 counterexample: from the empty engine state, on a snapshot holding
only a live reverse (ticket 12) whose original 5 is gone, the first cycle
issues a close; the close fails and nothing changes venue-side, and the
second cycle on the identical snapshot issues the very same close again —
not zero commands.  Reconciliation as the claim states it is therefore not
idempotent: commands whose effects did not materialize are re-issued. -/
theorem C4_counterexample :
    (cycle c4venue initialState [c4rev]).2 = [closeRequest c4venue c4rev] ∧
      (cycle c4venue (cycle c4venue initialState [c4rev]).1 [c4rev]).2 =
        [closeRequest c4venue c4rev] ∧
      (cycle c4venue (cycle c4venue initialState [c4rev]).1 [c4rev]).2 ≠
        [] := by
  refine ⟨rfl, rfl, ?_⟩
  rw [(rfl : (cycle c4venue (cycle c4venue initialState [c4rev]).1
      [c4rev]).2 = [closeRequest c4venue c4rev])]
  exact List.cons_ne_nil _ _

/-- C4 (amended): reconciliation is idempotent at quiescence — if a cycle
issues zero commands, then a second cycle on the identical snapshot with
the same venue responses also issues zero commands.  (By the
counterexample, a cycle that issued commands whose effects did not
materialize re-issues them as retries, so the unrestricted claim fails.)
The standing engine invariants are assumed: distinct snapshot tickets,
distinct linkage keys, and every linked identifier already in the
Reversed-Once Set. -/
theorem C4_quiescent_cycle_stable (v : Venue) (st : EngineState)
    (snap : List TradePosition)
    (hsnap : (snapTickets snap).Nodup)
    (htbl : (alKeys st.orig_to_rev).Nodup)
    (hinv : ∀ k ∈ alKeys st.orig_to_rev, k ∈ st.reversed_once)
    (hagain : v.posAgain = snap)
    (hzero : (cycle v st snap).2 = []) :
    (cycle v (cycle v st snap).1 snap).2 = [] := by
  subst hagain
  have hzero' : (afterPassA v st v.posAgain).2 ++
      (passBRun v (posByTicket v.posAgain)
        (tableAtPassB v st v.posAgain)
        (tableAtPassB v st v.posAgain)).2 = [] := hzero
  have hA : (afterPassA v st v.posAgain).2 = [] :=
    (List.append_eq_nil.mp hzero').1
  have hB : (passBRun v (posByTicket v.posAgain)
      (tableAtPassB v st v.posAgain)
      (tableAtPassB v st v.posAgain)).2 = [] :=
    (List.append_eq_nil.mp hzero').2
  have hApass : (afterPassA v st v.posAgain).1 =
      stateAfterRebuild st v.posAgain :=
    passARun_zero v (cycleOriginals v.posAgain)
      (stateAfterRebuild st v.posAgain) hA
  have htabB : tableAtPassB v st v.posAgain =
      (stateAfterRebuild st v.posAgain).orig_to_rev :=
    congrArg EngineState.orig_to_rev hApass
  have hset2 : (cycle v st v.posAgain).1.reversed_once =
      (stateAfterRebuild st v.posAgain).reversed_once := by
    rw [cycle_set_eq, hApass]
  have htbl1 : (alKeys (stateAfterRebuild st v.posAgain).orig_to_rev).Nodup :=
    rebuildState_keys_nodup (cycleReverses v.posAgain) st htbl
  have hkeysinv1 :
      ∀ k ∈ alKeys (stateAfterRebuild st v.posAgain).orig_to_rev,
        k ∈ (stateAfterRebuild st v.posAgain).reversed_once :=
    stateAfterRebuild_inv st v.posAgain hinv
  have hEntries : ∀ e ∈ tableAtPassB v st v.posAgain,
      passBEntry v (posByTicket v.posAgain) e = [] := by
    intro e he
    cases hq : passBEntry v (posByTicket v.posAgain) e with
    | nil => rfl
    | cons c cs =>
      exfalso
      have hcm : c ∈ (passBRun v (posByTicket v.posAgain)
          (tableAtPassB v st v.posAgain)
          (tableAtPassB v st v.posAgain)).2 :=
        (passBRun_mem_cmds v _ _ _ c).mpr
          ⟨e, he, by rw [hq]; exact List.mem_cons_self _ _⟩
      rw [hB] at hcm
      simp at hcm
  have hA2 : (afterPassA v (cycle v st v.posAgain).1 v.posAgain).2 = [] := by
    have hcond1 := passARun_zero_inv v (cycleOriginals v.posAgain)
      (stateAfterRebuild st v.posAgain) hA
    refine passARun_zero_of v (cycleOriginals v.posAgain)
      (stateAfterRebuild (cycle v st v.posAgain).1 v.posAgain) ?_
    intro op hop
    rcases hcond1 op hop with h' | h' | h' | h'
    · left
      have hmem2 : op.ticket ∈ (cycle v st v.posAgain).1.reversed_once := by
        rw [hset2]
        exact h'
      exact rebuildState_set_sub (cycleReverses v.posAgain) _ hmem2
    · have hk1 : op.ticket ∈
          alKeys (stateAfterRebuild st v.posAgain).orig_to_rev :=
        (alLookup_isSome_iff _ _).mp h'
      have hks := hkeysinv1 _ hk1
      left
      have hmem2 : op.ticket ∈ (cycle v st v.posAgain).1.reversed_once := by
        rw [hset2]
        exact hks
      exact rebuildState_set_sub (cycleReverses v.posAgain) _ hmem2
    · exact Or.inr (Or.inr (Or.inl h'))
    · exact Or.inr (Or.inr (Or.inr h'))
  have hApass2 : (afterPassA v (cycle v st v.posAgain).1 v.posAgain).1 =
      stateAfterRebuild (cycle v st v.posAgain).1 v.posAgain :=
    passARun_zero v (cycleOriginals v.posAgain)
      (stateAfterRebuild (cycle v st v.posAgain).1 v.posAgain) hA2
  have htab2 : tableAtPassB v (cycle v st v.posAgain).1 v.posAgain =
      (stateAfterRebuild (cycle v st v.posAgain).1 v.posAgain).orig_to_rev :=
    congrArg EngineState.orig_to_rev hApass2
  have hnd2 : (alKeys (cycle v st v.posAgain).1.orig_to_rev).Nodup := by
    rw [cycle_table_eq]
    refine passBRun_table_nodup v _ _ _ ?_
    rw [htabB]
    exact htbl1
  have hnd2' :
      (alKeys (tableAtPassB v (cycle v st v.posAgain).1 v.posAgain)).Nodup := by
    rw [htab2]
    exact rebuildState_keys_nodup (cycleReverses v.posAgain) _ hnd2
  have hB2 : (passBRun v (posByTicket v.posAgain)
      (tableAtPassB v (cycle v st v.posAgain).1 v.posAgain)
      (tableAtPassB v (cycle v st v.posAgain).1 v.posAgain)).2 = [] := by
    cases hq : (passBRun v (posByTicket v.posAgain)
        (tableAtPassB v (cycle v st v.posAgain).1 v.posAgain)
        (tableAtPassB v (cycle v st v.posAgain).1 v.posAgain)).2 with
    | nil => rfl
    | cons c cs =>
      exfalso
      have hcm : c ∈ (passBRun v (posByTicket v.posAgain)
          (tableAtPassB v (cycle v st v.posAgain).1 v.posAgain)
          (tableAtPassB v (cycle v st v.posAgain).1 v.posAgain)).2 := by
        rw [hq]
        exact List.mem_cons_self _ _
      obtain ⟨e, he, hce⟩ := (passBRun_mem_cmds v _ _ _ c).mp hcm
      obtain ⟨k, r⟩ := e
      have hlk2 : alLookup
          (tableAtPassB v (cycle v st v.posAgain).1 v.posAgain) k =
          some r := mem_alLookup _ _ _ hnd2' he
      have hlk2' : alLookup (rebuildState (cycle v st v.posAgain).1
          (cycleReverses v.posAgain)).orig_to_rev k = some r := by
        rw [htab2, stateAfterRebuild_eq] at hlk2
        exact hlk2
      rw [rebuildState_lookup] at hlk2'
      have hinB : (k, r) ∈ tableAtPassB v st v.posAgain := by
        cases hf : (cycleReverses v.posAgain).reverse.find?
            (claimsTicket k) with
        | some rp =>
          rw [hf] at hlk2'
          have hlkB : alLookup (rebuildState st
              (cycleReverses v.posAgain)).orig_to_rev k = some r := by
            rw [rebuildState_lookup, hf]
            exact hlk2'
          have hlkB' : alLookup (tableAtPassB v st v.posAgain) k =
              some r := by
            rw [htabB, stateAfterRebuild_eq]
            exact hlkB
          exact alLookup_mem _ _ _ hlkB'
        | none =>
          rw [hf] at hlk2'
          have hm2 : (k, r) ∈ (cycle v st v.posAgain).1.orig_to_rev :=
            alLookup_mem _ _ _ hlk2'
          have hself := passBRun_self_mem v (posByTicket v.posAgain)
            (tableAtPassB v st v.posAgain)
            (by rw [htabB]; exact htbl1) k r hm2
          exact hself.1
      have := hEntries (k, r) hinB
      rw [this] at hce
      simp at hce
  have hgoal : (cycle v (cycle v st v.posAgain).1 v.posAgain).2 =
      (afterPassA v (cycle v st v.posAgain).1 v.posAgain).2 ++
        (passBRun v (posByTicket v.posAgain)
          (tableAtPassB v (cycle v st v.posAgain).1 v.posAgain)
          (tableAtPassB v (cycle v st v.posAgain).1 v.posAgain)).2 := rfl
  rw [hgoal, hA2, hB2]
  rfl

theorem C4_quiescent_cycle_stable_witness :
    (cycle c9venue (cycle c9venue (⟨[], {7}⟩ : EngineState)
        [c9orig]).1 [c9orig]).2 = [] :=
  C4_quiescent_cycle_stable c9venue ⟨[], {7}⟩ [c9orig] (by decide)
    (by decide) (by decide) rfl rfl

end MT5Reverse
